import Mathlib

/-!
Verification of the legal-statute segmentation and chunking pipeline of the
Legal-Document-Summarizer repository.

Strings are modelled as `List Char` (`Str`).  Python's regular-expression
scanners are embedded as explicit character-level scanning functions; the
external tokenizer is modelled as a parameter `encode : Str → Nat`
(the length of `tokenizer.encode(text, add_special_tokens=False)`), and in
the failure model as `Str → Except ε Nat`.
-/

set_option maxRecDepth 100000
set_option maxHeartbeats 4000000

/-- Strings are lists of characters. -/
abbrev Str := List Char

/-- Dropped prefixes never lengthen a list (termination helper). -/
theorem lenDropWhileLe (p : Char → Bool) (l : List Char) :
    (l.dropWhile p).length ≤ l.length := by
  induction l with
  | nil => simp [List.dropWhile]
  | cons c r ih =>
    simp only [List.dropWhile]
    cases p c <;> simp
    omega

/-- A dropped tail is shorter than the consed list (termination helper). -/
theorem lenDropWhileLtCons (p : Char → Bool) (c : Char) (rest : List Char) :
    (rest.dropWhile p).length < (c :: rest).length := by
  have := lenDropWhileLe p rest
  simp only [List.length_cons]
  omega

/-- Python's `\s` class and `str.strip()` whitespace:
space, tab, newline, carriage return, vertical tab, form feed. -/
def pyWs (c : Char) : Bool :=
  c = ' ' || c = '\t' || c = '\n' || c = '\r' || c = '\x0b' || c = '\x0c'

/-- Python `str.strip()`: drop whitespace from both ends. -/
def pyStrip (s : Str) : Str :=
  ((s.dropWhile pyWs).reverse.dropWhile pyWs).reverse

/-- Python `str.split()` with no argument: maximal runs of
non-whitespace characters, empty pieces discarded. -/
def pyWords : Str → List Str
  | [] => []
  | c :: r =>
    if pyWs c then pyWords r
    else
      (c :: r.takeWhile (fun x => !pyWs x)) ::
        pyWords (r.dropWhile (fun x => !pyWs x))
termination_by s => s.length
decreasing_by
  · simp only [List.length_cons]
    omega
  · apply lenDropWhileLtCons

/-- Join a list of strings with a single separating space
(Python `" ".join`). -/
def sepJoin : List Str → Str
  | [] => []
  | [x] => x
  | x :: y :: xs => x ++ ' ' :: sepJoin (y :: xs)

/-- The words of each member string, concatenated in order.  Two texts have
the same `pyWords` exactly when they agree up to whitespace normalization. -/
def wordsOfChunks (l : List Str) : List Str :=
  (l.map pyWords).flatten

/-- A string containing at least one non-whitespace character. -/
def hasSolid (s : Str) : Bool := s.any (fun c => !pyWs c)

/-- `takeWhile` and `dropWhile` partition a list's length. -/
theorem lenTakeDropWhile (p : Char → Bool) (l : List Char) :
    (l.takeWhile p).length + (l.dropWhile p).length = l.length := by
  have h := List.takeWhile_append_dropWhile (p := p) (l := l)
  have hlen := congrArg List.length h
  simp only [List.length_append] at hlen
  exact hlen

/-- Apply a function to the last element of a list, if any
(Python's `lst[-1] = f(lst[-1])`). -/
def updateLast {α : Type} (f : α → α) : List α → List α
  | [] => []
  | [x] => [f x]
  | x :: y :: xs => x :: updateLast f (y :: xs)

namespace SplitSections

/-!
Embedding of `Dataset/Data_BNS_BNSS_BSA/Unprocessed/Split_Sections.py`.
-/

/-- Sentence-ending punctuation of the splitter `(?<=[.!?])\s+`. -/
def sentPunct (c : Char) : Bool := c = '.' || c = '!' || c = '?'

/-- Scanner for `re.split(r'(?<=[.!?])\s+', text)`: a maximal whitespace
run whose preceding character is `.`, `!` or `?` separates sentences.
`acc` holds the current piece reversed. -/
def sentSplitGo (acc : Str) : Str → List Str
  | [] => [acc.reverse]
  | c :: rest =>
    if pyWs c && (match acc with | p :: _ => sentPunct p | [] => false) then
      acc.reverse :: sentSplitGo [] (List.dropWhile pyWs rest)
    else
      sentSplitGo (c :: acc) rest
termination_by s => s.length
decreasing_by
  · apply lenDropWhileLtCons
  · simp only [List.length_cons]
    omega

/-- `split_into_sentences` from `Split_Sections.py`: strip, split on
sentence-ending punctuation followed by whitespace, drop empty pieces. -/
def split_into_sentences (text : Str) : List Str :=
  (sentSplitGo [] (pyStrip text)).filter (fun s => s ≠ [])

/-- Word-accumulation loop of `split_long_sentence`: `cur` is
`current_chunk`, `curLen` is `current_length` (the sum of the individual
word token lengths), `maxContent` is `max_tokens - 2` as a Python integer. -/
def slsGo (encode : Str → Nat) (maxContent : Int) :
    List Str → Str → Nat → List Str
  | [], cur, _ => if cur ≠ [] then [pyStrip cur] else []
  | w :: ws, cur, curLen =>
    let wordLength := encode w
    if (curLen : Int) + wordLength > maxContent then
      (if cur ≠ [] then [pyStrip cur] else []) ++
        slsGo encode maxContent ws w wordLength
    else
      slsGo encode maxContent ws (cur ++ ' ' :: w) (curLen + wordLength)

/-- `split_long_sentence` from `Split_Sections.py`: split a single long
sentence at word boundaries, measuring each word's token length
independently and flushing when the running sum would exceed
`max_tokens - 2`. -/
def split_long_sentence (encode : Str → Nat) (max_tokens : Nat)
    (sentence : Str) : List Str :=
  slsGo encode ((max_tokens : Int) - 2) (pyWords sentence) [] 0

/-- Sentence loop of `sentence_aware_split`; `cur` is `current_chunk`,
emitted chunks are produced in order. -/
def sasGo (encode : Str → Nat) (max_tokens : Nat) :
    List Str → Str → List Str
  | [], cur => if cur ≠ [] then [pyStrip cur] else []
  | s :: ss, cur =>
    let sentenceTokens := encode s
    if sentenceTokens > max_tokens then
      (if cur ≠ [] then [pyStrip cur] else []) ++
        split_long_sentence encode max_tokens s ++ sasGo encode max_tokens ss []
    else
      let temp := pyStrip (cur ++ ' ' :: s)
      if encode temp > max_tokens then
        (if cur ≠ [] then [pyStrip cur] else []) ++ sasGo encode max_tokens ss s
      else
        sasGo encode max_tokens ss temp

/-- `sentence_aware_split` from `Split_Sections.py`. -/
def sentence_aware_split (encode : Str → Nat) (max_tokens : Nat)
    (content : Str) : List Str :=
  sasGo encode max_tokens (split_into_sentences content) []

/-- Chunks and pending current chunk after processing a prefix of the
sentence list (used to state where the oversized-sentence fallback's
output sits inside the full output). -/
def sasPre (encode : Str → Nat) (max_tokens : Nat) :
    List Str → Str → List Str × Str
  | [], cur => ([], cur)
  | s :: ss, cur =>
    let sentenceTokens := encode s
    if sentenceTokens > max_tokens then
      let rec₀ := sasPre encode max_tokens ss []
      ((if cur ≠ [] then [pyStrip cur] else []) ++
        split_long_sentence encode max_tokens s ++ rec₀.1, rec₀.2)
    else
      let temp := pyStrip (cur ++ ' ' :: s)
      if encode temp > max_tokens then
        let rec₀ := sasPre encode max_tokens ss s
        ((if cur ≠ [] then [pyStrip cur] else []) ++ rec₀.1, rec₀.2)
      else
        sasPre encode max_tokens ss temp

/-- `split_long_sentence` when each `tokenizer.encode` call may fail:
Python exceptions are modelled by the `Except` monad, and the code has no
handler, so any raised error propagates. -/
def slsGoE {ε : Type} (encodeE : Str → Except ε Nat) (maxContent : Int) :
    List Str → Str → Nat → Except ε (List Str)
  | [], cur, _ => .ok (if cur ≠ [] then [pyStrip cur] else [])
  | w :: ws, cur, curLen => do
    let wordLength ← encodeE w
    if (curLen : Int) + wordLength > maxContent then do
      let rest ← slsGoE encodeE maxContent ws w wordLength
      pure ((if cur ≠ [] then [pyStrip cur] else []) ++ rest)
    else
      slsGoE encodeE maxContent ws (cur ++ ' ' :: w) (curLen + wordLength)

/-- `split_long_sentence` under the failing-tokenizer model. -/
def split_long_sentenceE {ε : Type} (encodeE : Str → Except ε Nat)
    (max_tokens : Nat) (sentence : Str) : Except ε (List Str) :=
  slsGoE encodeE ((max_tokens : Int) - 2) (pyWords sentence) [] 0

/-- Sentence loop of `sentence_aware_split` under the failing-tokenizer
model; every `tokenizer.encode` call is a monadic action whose error,
if any, propagates to the caller. -/
def sasGoE {ε : Type} (encodeE : Str → Except ε Nat) (max_tokens : Nat) :
    List Str → Str → Except ε (List Str)
  | [], cur => .ok (if cur ≠ [] then [pyStrip cur] else [])
  | s :: ss, cur => do
    let sentenceTokens ← encodeE s
    if sentenceTokens > max_tokens then do
      let long ← split_long_sentenceE encodeE max_tokens s
      let rest ← sasGoE encodeE max_tokens ss []
      pure ((if cur ≠ [] then [pyStrip cur] else []) ++ long ++ rest)
    else do
      let temp := pyStrip (cur ++ ' ' :: s)
      let tempTokens ← encodeE temp
      if tempTokens > max_tokens then do
        let rest ← sasGoE encodeE max_tokens ss s
        pure ((if cur ≠ [] then [pyStrip cur] else []) ++ rest)
      else
        sasGoE encodeE max_tokens ss temp

/-- `sentence_aware_split` under the failing-tokenizer model. -/
def sentence_aware_splitE {ε : Type} (encodeE : Str → Except ε Nat)
    (max_tokens : Nat) (content : Str) : Except ε (List Str) :=
  sasGoE encodeE max_tokens (split_into_sentences content) []

end SplitSections

/-- A concrete tokenizer length function (one token per character), used
to instantiate the external-tokenizer parameter on concrete inputs. -/
def charCountTok (s : Str) : Nat := s.length

/-- A concrete tokenizer length function (one token per whitespace-word). -/
def wordCountTok (s : Str) : Nat := (pyWords s).length

/-- A tokenizer that fails on every input (models a raising
`tokenizer.encode`). -/
def failTok (s : Str) : Except Unit Nat := .error ()

/-- An extracted section record:
`{"section_number": ..., "content": ..., "statute": ...}`. -/
structure SectionRec where
  section_number : Str
  content : Str
  statute : Str
deriving DecidableEq

namespace ExtractSections

/-!
Embedding of `Dataset/Data_BNS_BNSS_BSA/Unprocessed/Extract_sections.py`.
-/

/-- Characters removed by
`re.sub(r'[—”‘’ââââ¦â€“]', '', text)` (encoding artifacts). -/
def isArtifact (c : Char) : Bool :=
  c = '—' || c = '”' || c = '‘' || c = '’' || c = 'â' || c = '¦' || c = '€' || c = '“'

/-- Step 1 of `clean_content`: remove encoding artifacts. -/
def removeArtifacts (s : Str) : Str := s.filter (fun c => !isArtifact c)

/-- Two newlines begin at this position (the `(?=\n{2,}|\Z)` lookahead). -/
def hasNN : Str → Bool
  | '\n' :: '\n' :: _ => true
  | _ => false

/-- Length of the newline run at the head of the string. -/
def nlRun (s : Str) : Nat := (s.takeWhile (fun c => c = '\n')).length

/-- Consume the non-greedy `.*?` of the block pattern: skip forward until a
double newline follows or the string ends. -/
def skipToNN : Str → Str
  | [] => []
  | c :: r => if hasNN (c :: r) then c :: r else skipToNN r

/-- `skipToNN` never lengthens a string. -/
theorem lenSkipToNNLe (l : Str) : (skipToNN l).length ≤ l.length := by
  induction l with
  | nil => simp [skipToNN]
  | cons c r ih =>
    simp only [skipToNN]
    split
    · simp
    · simp only [List.length_cons]
      omega

/-- The head newline run and the remainder partition the string. -/
theorem nlRunDropWhile (l : Str) :
    nlRun l + (l.dropWhile (fun x => x = '\n')).length = l.length := by
  have := List.takeWhile_append_dropWhile (p := fun x : Char => x = '\n') (l := l)
  have hlen := congrArg List.length this
  simp only [List.length_append] at hlen
  simpa [nlRun] using hlen

/-- Step 2 of `clean_content`:
`re.sub(r'\n{5,}.*?(?=\n{2,}|\Z)', '', text, flags=re.DOTALL)` — a run of
five or more newlines and everything after it up to the next paragraph
break (or end of text) is deleted. -/
def removeBlocks : Str → Str
  | [] => []
  | c :: r =>
    if nlRun (c :: r) ≥ 5 then
      removeBlocks (skipToNN ((c :: r).dropWhile (fun x => x = '\n')))
    else c :: removeBlocks r
termination_by s => s.length
decreasing_by
  · have h1 := lenSkipToNNLe ((c :: r).dropWhile (fun x => x = '\n'))
    have h2 : ((c :: r).dropWhile (fun x => x = '\n')).length + 5 ≤ (c :: r).length := by
      have := nlRunDropWhile (c :: r)
      omega
    omega
  · simp only [List.length_cons]
    omega

/-- Step 3 of `clean_content`: `re.sub(r'[ \t]+', ' ', text)`. -/
def collapseSpTab : Str → Str
  | [] => []
  | c :: r =>
    if c = ' ' || c = '\t' then
      ' ' :: collapseSpTab (r.dropWhile (fun x => x = ' ' || x = '\t'))
    else c :: collapseSpTab r
termination_by s => s.length
decreasing_by
  · apply lenDropWhileLtCons
  · simp only [List.length_cons]
    omega

/-- Step 4 of `clean_content`: `re.sub(r' +\n', '\n', text)` — spaces
immediately preceding a newline are deleted. -/
def delSpBeforeNl : Str → Str
  | [] => []
  | c :: r =>
    if c = ' ' then
      (if (r.dropWhile (fun x => x = ' ')).head? = some '\n' then
        '\n' :: delSpBeforeNl ((r.dropWhile (fun x => x = ' ')).tail)
      else
        (c :: r.takeWhile (fun x => x = ' ')) ++
          delSpBeforeNl (r.dropWhile (fun x => x = ' ')))
    else c :: delSpBeforeNl r
termination_by s => s.length
decreasing_by
  · have h1 := lenDropWhileLe (fun x => x = ' ') r
    have h2 : ((r.dropWhile (fun x => x = ' ')).tail).length ≤
        (r.dropWhile (fun x => x = ' ')).length := by
      cases r.dropWhile (fun x => x = ' ') <;> simp
    simp only [List.length_cons]
    omega
  · apply lenDropWhileLtCons
  · simp only [List.length_cons]
    omega

/-- Step 5 of `clean_content`: `re.sub(r'(?<!\n)\n(?!\n)', ' ', text)` — a
lone newline (soft line wrap) becomes a space; `prev` is the character of
the original text just before the current position. -/
def singleNl (prev : Option Char) : Str → Str
  | [] => []
  | c :: r =>
    if c = '\n' && prev ≠ some '\n' && r.head? ≠ some '\n' then
      ' ' :: singleNl (some '\n') r
    else c :: singleNl (some c) r

/-- Step 6 of `clean_content`: `re.sub(r'\n{3,}', '\n\n', text)`. -/
def collapseNl3 : Str → Str
  | [] => []
  | c :: r =>
    if c = '\n' && nlRun (c :: r) ≥ 3 then
      '\n' :: '\n' :: collapseNl3 (r.dropWhile (fun x => x = '\n'))
    else c :: collapseNl3 r
termination_by s => s.length
decreasing_by
  · apply lenDropWhileLtCons
  · simp only [List.length_cons]
    omega

/-- Step 7 of `clean_content`:
`re.sub(r'\(\d+\)\s*', lambda m: m.group(0).strip() + ' ', text)` — a
parenthesized number and any following whitespace become the
parenthesized number followed by exactly one space. -/
def parenDigitFix : Str → Str
  | [] => []
  | '(' :: r =>
    (if 1 ≤ (r.takeWhile Char.isDigit).length &&
        (r.dropWhile Char.isDigit).head? = some ')' then
      '(' :: r.takeWhile Char.isDigit ++ ')' :: ' ' ::
        parenDigitFix (((r.dropWhile Char.isDigit).tail).dropWhile pyWs)
    else '(' :: parenDigitFix r)
  | c :: r => c :: parenDigitFix r
termination_by s => s.length
decreasing_by
  · have h1 := lenDropWhileLe pyWs ((r.dropWhile Char.isDigit).tail)
    have h2 := lenDropWhileLe Char.isDigit r
    have h3 : ((r.dropWhile Char.isDigit).tail).length ≤
        (r.dropWhile Char.isDigit).length := by
      cases r.dropWhile Char.isDigit <;> simp
    simp only [List.length_cons]
    omega
  · simp only [List.length_cons]
    omega
  · simp only [List.length_cons]
    omega

/-- ASCII lowercase letter (the `[a-z]` class). -/
def isLowerAZ (c : Char) : Bool := 'a' ≤ c && c ≤ 'z'

/-- Step 8 of `clean_content`:
`re.sub(r'\([a-z]\)\s*', lambda m: m.group(0).strip() + ' ', text)`. -/
def parenLetterFix : Str → Str
  | [] => []
  | '(' :: a :: ')' :: r2 =>
    if isLowerAZ a then
      '(' :: a :: ')' :: ' ' :: parenLetterFix (r2.dropWhile pyWs)
    else '(' :: parenLetterFix (a :: ')' :: r2)
  | c :: r => c :: parenLetterFix r
termination_by s => s.length
decreasing_by
  · have := lenDropWhileLe pyWs r2
    simp only [List.length_cons]
    omega
  · simp only [List.length_cons]
    omega
  · simp only [List.length_cons]
    omega

/-- `clean_content` from `Extract_sections.py`: the eight regex
substitutions applied in source order. -/
def clean_content (text : Str) : Str :=
  parenLetterFix (parenDigitFix (collapseNl3 (singleNl none
    (delSpBeforeNl (collapseSpTab (removeBlocks (removeArtifacts text)))))))

/-- The `(?=(?:\n\s*\d{1,4}\.\s)|\Z)` lookahead of the section pattern:
either the text ends here, or a newline is followed by optional
whitespace, one to four digits, a period and a whitespace character. -/
def sectionLookahead : Str → Bool
  | [] => true
  | '\n' :: t =>
    let t1 := t.dropWhile pyWs
    let ds := t1.takeWhile Char.isDigit
    (1 ≤ ds.length && ds.length ≤ 4) &&
      (match t1.dropWhile Char.isDigit with
       | '.' :: w :: _ => pyWs w
       | _ => false)
  | _ => false

/-- Consume the non-greedy `(.*?)` of the section pattern: the shortest
content such that `sectionLookahead` holds at the remainder.  Returns the
consumed content and the remainder. -/
def scanContent : Str → Str × Str
  | [] => ([], [])
  | c :: r =>
    if sectionLookahead (c :: r) then ([], c :: r)
    else
      let p := scanContent r
      (c :: p.1, p.2)

/-- `(scanContent l).2` is a suffix no longer than `l`. -/
theorem lenScanContentLe (l : Str) : (scanContent l).2.length ≤ l.length := by
  induction l with
  | nil => simp [scanContent]
  | cons c r ih =>
    simp only [scanContent]
    split
    · simp
    · simp only [List.length_cons]
      omega

/-- Attempt the pattern `^\s*(\d{1,4})\.\s*(.*?)(?=...)` at a line start:
returns the digit group, the raw content group, the remaining suffix, and
the last character consumed (used to decide whether the resumption point
is a line start). -/
def tryMatch (l : Str) : Option (Str × Str × Str × Char) :=
  let l1 := l.dropWhile pyWs
  let ds := l1.takeWhile Char.isDigit
  let l1' := l1.dropWhile Char.isDigit
  if (1 ≤ ds.length && ds.length ≤ 4) && l1'.head? = some '.' then
    let l2 := l1'.tail
    let run := l2.takeWhile pyWs
    let l3 := l2.dropWhile pyWs
    let p := scanContent l3
    let lastc :=
      match p.1.getLast? with
      | some c => c
      | none =>
        match run.getLast? with
        | some c => c
        | none => '.'
    some (ds, p.1, p.2, lastc)
  else none

/-- A successful `tryMatch` consumes at least one character. -/
theorem tryMatchRestLt (l : Str) (ds content rest : Str) (lastc : Char)
    (h : tryMatch l = some (ds, content, rest, lastc)) :
    rest.length < l.length := by
  unfold tryMatch at h
  dsimp only [] at h
  split at h
  · rename_i hcond
    simp only [Option.some.injEq, Prod.mk.injEq] at h
    obtain ⟨_, _, hrest, _⟩ := h
    have hrlen := congrArg List.length hrest
    simp only [Bool.and_eq_true, decide_eq_true_eq] at hcond
    obtain ⟨⟨hds1, _⟩, hhead⟩ := hcond
    have h1 := lenScanContentLe
      ((((l.dropWhile pyWs).dropWhile Char.isDigit).tail).dropWhile pyWs)
    have h2 := lenDropWhileLe pyWs
      (((l.dropWhile pyWs).dropWhile Char.isDigit).tail)
    have h3 : ((l.dropWhile pyWs).dropWhile Char.isDigit).tail.length + 1 =
        ((l.dropWhile pyWs).dropWhile Char.isDigit).length := by
      cases hh : (l.dropWhile pyWs).dropWhile Char.isDigit with
      | nil => rw [hh] at hhead; simp at hhead
      | cons a t => simp [hh]
    have h4 := lenTakeDropWhile Char.isDigit (l.dropWhile pyWs)
    have h5 := lenDropWhileLe pyWs l
    omega
  · simp at h

/-- The resumption point of a successful `tryMatch` (the match end),
recomputed directly so that the scanner's recursion is visibly
decreasing; `[]` when there is no match. -/
def secRest (l : Str) : Str :=
  match tryMatch l with
  | some (_, _, rest, _) => rest
  | none => []

/-- The resumption point is strictly inside a nonempty string. -/
theorem secRestLt (c : Char) (r : Str) :
    (secRest (c :: r)).length < (c :: r).length := by
  unfold secRest
  cases h : tryMatch (c :: r) with
  | none => simp
  | some q => exact tryMatchRestLt _ _ _ _ _ h

/-- `re.finditer` scan of the section pattern
`^\s*(\d{1,4})\.\s*(.*?)(?=(?:\n\s*\d{1,4}\.\s)|\Z)` with
`re.DOTALL | re.MULTILINE`: attempt a match at every line start, and on
success resume at the match end.  `atLS` records whether the current
position is the start of the text or preceded by a newline. -/
def findSections (atLS : Bool) : Str → List (Str × Str)
  | [] => []
  | c :: r =>
    if atLS then
      match tryMatch (c :: r) with
      | some (ds, content, _, lastc) =>
        (ds, content) :: findSections (lastc = '\n') (secRest (c :: r))
      | none => findSections (c = '\n') r
    else findSections (c = '\n') r
termination_by s => s.length
decreasing_by
  · exact secRestLt c r
  · simp only [List.length_cons]
    omega
  · simp only [List.length_cons]
    omega

/-- Value of a digit string (`int(...)` on a decimal numeral). -/
def natOfDigits (ds : Str) : Nat :=
  ds.foldl (fun n c => 10 * n + (c.toNat - '0'.toNat)) 0

/-- Merge step of `extract_and_clean_sections`: a marker whose number is
exactly `previous + 1` starts a new record; otherwise its cleaned content
is appended to the last record after a blank line, and
`previous_section_number` is not advanced.  The first marker always
starts a record. -/
def mergeStep (statute : Str) :
    Option Nat × List SectionRec → Nat × Str → Option Nat × List SectionRec
  | (none, secs), (n, c) =>
    (some n, secs ++ [⟨(Nat.repr n).data, c, statute⟩])
  | (some p, secs), (n, c) =>
    if (n : Int) - (p : Int) = 1 then
      (some n, secs ++ [⟨(Nat.repr n).data, c, statute⟩])
    else
      (some p, updateLast (fun s =>
        ⟨s.section_number, s.content ++ '\n' :: '\n' :: c, s.statute⟩) secs)

/-- `extract_and_clean_sections` from `Extract_sections.py` as a pure
function from the file's text to the list of section records. -/
def extract_and_clean_sections (full_text : Str) (statute_name : Str) :
    List SectionRec :=
  (((findSections true full_text).map
    (fun m => (natOfDigits m.1, clean_content (pyStrip m.2)))).foldl
    (mergeStep statute_name) (none, [])).2

end ExtractSections

namespace ExtractSection

/-!
Embedding of `Dataset/Data_BNS_BNSS_BSA/Actual Law/extracted_statutes/Extract_section.py`
(`split_sections_by_number`).
-/

/-- ASCII uppercase letter (the `[A-Z]` class). -/
def isUpperAZ (c : Char) : Bool := 'A' ≤ c && c ≤ 'Z'

/-- Match `\d{1,3}[A-Z]?\.` at the head of the string: one to three digits
(a longer digit run cannot match), an optional uppercase letter, a
period.  Returns the number group (without the period) and the suffix
after the period. -/
def parseSecNum (l : Str) : Option (Str × Str) :=
  let ds := l.takeWhile Char.isDigit
  let l1 := l.dropWhile Char.isDigit
  if 1 ≤ ds.length && ds.length ≤ 3 then
    if (match l1.head? with | some c => isUpperAZ c | none => false) then
      if l1.tail.head? = some '.' then some (ds ++ l1.take 1, l1.tail.tail)
      else none
    else if l1.head? = some '.' then some (ds, l1.tail)
    else none
  else none

/-- A successful `parseSecNum` consumes at least two characters. -/
theorem parseSecNumLt (l : Str) (g r2 : Str)
    (h : parseSecNum l = some (g, r2)) : r2.length + 2 ≤ l.length := by
  unfold parseSecNum at h
  dsimp only [] at h
  split at h
  · rename_i hds
    simp only [Bool.and_eq_true, decide_eq_true_eq] at hds
    have hpart := lenTakeDropWhile Char.isDigit l
    split at h
    · split at h
      · rename_i hdot
        simp only [Option.some.injEq, Prod.mk.injEq] at h
        obtain ⟨_, hr⟩ := h
        have hrlen := congrArg List.length hr
        have ht : (l.dropWhile Char.isDigit).tail.length + 1 ≥
            (l.dropWhile Char.isDigit).tail.tail.length + 2 ∨
            (l.dropWhile Char.isDigit).tail.tail.length + 2 ≤
            (l.dropWhile Char.isDigit).tail.length + 1 := by
          cases hh : (l.dropWhile Char.isDigit).tail with
          | nil => rw [hh] at hdot; simp at hdot
          | cons a t => simp [hh]
        have h1 : (l.dropWhile Char.isDigit).tail.tail.length + 1 ≤
            (l.dropWhile Char.isDigit).tail.length := by
          cases hh : (l.dropWhile Char.isDigit).tail with
          | nil => rw [hh] at hdot; simp at hdot
          | cons a t => simp [hh]
        have h2 : (l.dropWhile Char.isDigit).tail.length + 1 ≤
            (l.dropWhile Char.isDigit).length := by
          rename_i hletter _
          cases hh : l.dropWhile Char.isDigit with
          | nil => rw [hh] at hletter; simp at hletter
          | cons a t => simp [hh]
        omega
      · simp at h
    · split at h
      · rename_i hdot
        simp only [Option.some.injEq, Prod.mk.injEq] at h
        obtain ⟨_, hr⟩ := h
        have hrlen := congrArg List.length hr
        have h2 : (l.dropWhile Char.isDigit).tail.length + 1 =
            (l.dropWhile Char.isDigit).length := by
          cases hh : l.dropWhile Char.isDigit with
          | nil => rw [hh] at hdot; simp at hdot
          | cons a t => simp [hh]
        omega
      · simp at h
  · simp at h

/-- The lookahead
`(?=\n\d{1,3}[A-Z]?\.\s|\s\d{1,3}[A-Z]?\.\s|\Z)` of the statute section
pattern: end of text, or one whitespace character followed directly by a
section number, a period and a whitespace character. -/
def secLookahead : Str → Bool
  | [] => true
  | c :: r =>
    pyWs c &&
      (match parseSecNum r with
       | some (_, rest2) =>
         (match rest2.head? with | some w => pyWs w | none => false)
       | none => false)

/-- Non-greedy `((?:.|\n)*?)` consumption for the statute pattern. -/
def scanContentStat : Str → Str × Str
  | [] => ([], [])
  | c :: r =>
    if secLookahead (c :: r) then ([], c :: r)
    else
      let p := scanContentStat r
      (c :: p.1, p.2)

/-- `(scanContentStat l).2` is a suffix no longer than `l`. -/
theorem lenScanContentStatLe (l : Str) :
    (scanContentStat l).2.length ≤ l.length := by
  induction l with
  | nil => simp [scanContentStat]
  | cons c r ih =>
    simp only [scanContentStat]
    split
    · simp
    · simp only [List.length_cons]
      omega

/-- Complete a statute-pattern match after the section number: consume
`\s*`, then the non-greedy content up to the lookahead.  Returns the
number group, content group, remainder, and last consumed character. -/
def afterNum (grp : Str) (rest2 : Str) : Str × Str × Str × Char :=
  let run := rest2.takeWhile pyWs
  let p := scanContentStat (rest2.dropWhile pyWs)
  let lastc :=
    match p.1.getLast? with
    | some c => c
    | none =>
      match run.getLast? with
      | some c => c
      | none => '.'
  (grp, p.1, p.2, lastc)

/-- Attempt `(?:^|\n|\s)(\d{1,3}[A-Z]?)\.\s*((?:.|\n)*?)(?=...)` at one
position: the zero-width `^` branch when at a line start, otherwise the
`\n`/`\s` branch consuming one whitespace character. -/
def tryMatchStat (atLS : Bool) (l : Str) : Option (Str × Str × Str × Char) :=
  match (if atLS then parseSecNum l else none) with
  | some (grp, rest2) => some (afterNum grp rest2)
  | none =>
    match l with
    | c :: r =>
      if pyWs c then
        match parseSecNum r with
        | some (grp, rest2) => some (afterNum grp rest2)
        | none => none
      else none
    | [] => none

/-- A successful `tryMatchStat` consumes at least one character. -/
theorem tryMatchStatRestLt (atLS : Bool) (l : Str) (g c rest : Str)
    (lastc : Char) (h : tryMatchStat atLS l = some (g, c, rest, lastc)) :
    rest.length < l.length := by
  unfold tryMatchStat at h
  split at h
  · rename_i grp rest2 hps
    have hlt : rest2.length + 2 ≤ l.length := by
      apply parseSecNumLt l grp rest2
      cases atLS with
      | true => simpa using hps
      | false => simp at hps
    simp only [afterNum, Option.some.injEq, Prod.mk.injEq] at h
    obtain ⟨_, _, hr, _⟩ := h
    have hrlen := congrArg List.length hr
    have h1 := lenScanContentStatLe (rest2.dropWhile pyWs)
    have h2 := lenDropWhileLe pyWs rest2
    omega
  · rename_i hps
    split at h
    · rename_i c0 r
      split at h
      · split at h
        · rename_i grp rest2 hps2
          have hlt := parseSecNumLt r grp rest2 hps2
          simp only [afterNum, Option.some.injEq, Prod.mk.injEq] at h
          obtain ⟨_, _, hr, _⟩ := h
          have hrlen := congrArg List.length hr
          have h1 := lenScanContentStatLe (rest2.dropWhile pyWs)
          have h2 := lenDropWhileLe pyWs rest2
          simp only [List.length_cons]
          omega
        · simp at h
      · simp at h
    · simp at h

/-- The resumption point of a successful `tryMatchStat`, `[]` when there
is no match. -/
def statRest (atLS : Bool) (l : Str) : Str :=
  match tryMatchStat atLS l with
  | some (_, _, rest, _) => rest
  | none => []

/-- The resumption point is strictly inside a nonempty string. -/
theorem statRestLt (atLS : Bool) (c : Char) (r : Str) :
    (statRest atLS (c :: r)).length < (c :: r).length := by
  unfold statRest
  cases h : tryMatchStat atLS (c :: r) with
  | none => simp
  | some q => exact tryMatchStatRestLt _ _ _ _ _ _ h

/-- `re.findall` scan of the statute section pattern, with the same
line-start bookkeeping as `ExtractSections.findSections`. -/
def findAllStat (atLS : Bool) : Str → List (Str × Str)
  | [] => []
  | c :: r =>
    match tryMatchStat atLS (c :: r) with
    | some (grp, content, _, lastc) =>
      (grp, content) :: findAllStat (lastc = '\n') (statRest atLS (c :: r))
    | none => findAllStat (c = '\n') r
termination_by s => s.length
decreasing_by
  · exact statRestLt atLS c r
  · simp only [List.length_cons]
    omega

/-- `str.strip('.')` on the captured number group. -/
def stripDots (s : Str) : Str :=
  ((s.dropWhile (fun c => c = '.')).reverse.dropWhile (fun c => c = '.')).reverse

/-- Match `(\d{1,3}[A-Z]?\.)\s*\(1\)` at the head of the string for the
inline-fix substitution; returns the group (with its period) and the
suffix after `(1)`. -/
def tryInline (l : Str) : Option (Str × Str) :=
  match parseSecNum l with
  | some (grp, rest2) =>
    match rest2.dropWhile pyWs with
    | '(' :: '1' :: ')' :: rest3 => some (grp ++ ['.'], rest3)
    | _ => none
  | none => none

/-- A successful `tryInline` consumes at least one character. -/
theorem tryInlineRestLt (l : Str) (g rest : Str)
    (h : tryInline l = some (g, rest)) : rest.length < l.length := by
  unfold tryInline at h
  split at h
  · rename_i grp rest2 hps
    have hlt := parseSecNumLt l grp rest2 hps
    split at h
    · rename_i rest3 heq
      simp only [Option.some.injEq, Prod.mk.injEq] at h
      obtain ⟨_, hr⟩ := h
      have hrlen := congrArg List.length hr
      have h1 := lenDropWhileLe pyWs rest2
      have h2 := congrArg List.length heq
      simp only [List.length_cons] at h2
      omega
    · simp at h
  · simp at h

/-- `re.sub(r'(?<!\n)(\d{1,3}[A-Z]?\.)\s*\(1\)', r'\n\1 (1)', text)`:
insert a newline before a section number directly followed by `(1)`,
unless the number is already at the start of a line; `prev` is the
character of the original text before the current position. -/
def inlineRest (l : Str) : Str :=
  match tryInline l with
  | some (_, rest) => rest
  | none => []

/-- The inline-fix resumption point is strictly inside a nonempty
string. -/
theorem inlineRestLt (c : Char) (r : Str) :
    (inlineRest (c :: r)).length < (c :: r).length := by
  unfold inlineRest
  cases h : tryInline (c :: r) with
  | none => simp
  | some q => exact tryInlineRestLt _ _ _ h

def inlineFixGo (prev : Option Char) : Str → Str
  | [] => []
  | c :: r =>
    if prev ≠ some '\n' then
      match tryInline (c :: r) with
      | some (grp, _) =>
        '\n' :: grp ++ ' ' :: '(' :: '1' :: ')' ::
          inlineFixGo (some ')') (inlineRest (c :: r))
      | none => c :: inlineFixGo (some c) r
    else c :: inlineFixGo (some c) r
termination_by s => s.length
decreasing_by
  · exact inlineRestLt c r
  · simp only [List.length_cons]
    omega
  · simp only [List.length_cons]
    omega

/-- Record-building loop of `split_sections_by_number`: purely numeric
numbers above 358 are skipped, empty contents are skipped, everything
else becomes a record with its own (stripped) content. -/
def buildSections (statute : Str) (ms : List (Str × Str)) : List SectionRec :=
  ms.foldl
    (fun acc m =>
      let num := stripDots m.1
      if num.all Char.isDigit && ExtractSections.natOfDigits num > 358 then acc
      else
        let content := pyStrip m.2
        if content = [] then acc
        else acc ++ [⟨num, content, statute⟩]) []

/-- `split_sections_by_number` from `Extract_section.py` as a pure
function (the `if not matches: return []` branch coincides with folding
over the empty match list). -/
def split_sections_by_number (text : Str) (statute_name : Str) :
    List SectionRec :=
  buildSections statute_name (findAllStat true (inlineFixGo none text))

end ExtractSection

namespace InLegalBert

/-!
Embedding of `Dataset/Extract_Data_InLegalBert.py` (`process_text`,
`split_large_paragraph` and the chapter/section pattern tables).
-/

/-- `MIN_CHUNK_WORDS` configuration constant. -/
def MIN_CHUNK_WORDS : Nat := 20

/-- `MAX_CHUNK_LENGTH` configuration constant. -/
def MAX_CHUNK_LENGTH : Nat := 450

/-- First cleaning pass of `process_text`: `re.sub(r'\s+', ' ', text)`. -/
def wsCollapse : Str → Str
  | [] => []
  | c :: r =>
    if pyWs c then ' ' :: wsCollapse (r.dropWhile pyWs)
    else c :: wsCollapse r
termination_by s => s.length
decreasing_by
  · apply lenDropWhileLtCons
  · simp only [List.length_cons]
    omega

/-- A character outside the ASCII range (the `[^\x00-\x7F]` class). -/
def nonAscii (c : Char) : Bool := decide (127 < c.toNat)

/-- Second cleaning pass of `process_text`:
`re.sub(r'[^\x00-\x7F]+', ' ', text)`. -/
def nonAsciiCollapse : Str → Str
  | [] => []
  | c :: r =>
    if nonAscii c then ' ' :: nonAsciiCollapse (r.dropWhile nonAscii)
    else c :: nonAsciiCollapse r
termination_by s => s.length
decreasing_by
  · apply lenDropWhileLtCons
  · simp only [List.length_cons]
    omega

/-- The basic text cleaning at the top of `process_text`. -/
def cleanText (t : Str) : Str := nonAsciiCollapse (wsCollapse t)

/-- Python `\w` on ASCII text (all non-ASCII characters have already been
replaced by spaces when the patterns run). -/
def isWordChar (c : Char) : Bool := c.isAlpha || c.isDigit || c = '_'

/-- `\b` before a match that begins with a word character: the previous
character must not be a word character (or the match is at the start). -/
def wordBoundaryPre (prev : Option Char) : Bool :=
  match prev with
  | some c => !isWordChar c
  | none => true

/-- Match a literal at the head of the string, returning the remainder. -/
def litMatch : Str → Str → Option Str
  | [], l => some l
  | _ :: _, [] => none
  | a :: as, c :: r => if c = a then litMatch as r else none

/-- A matched literal accounts for its own length. -/
theorem litMatchLen (lit l rest : Str) (h : litMatch lit l = some rest) :
    rest.length + lit.length = l.length := by
  induction lit generalizing l with
  | nil =>
    simp only [litMatch, Option.some.injEq] at h
    subst h
    simp
  | cons a as ih =>
    cases l with
    | nil => simp [litMatch] at h
    | cons c r =>
      simp only [litMatch] at h
      split at h
      · have := ih r h
        simp only [List.length_cons]
        omega
      · simp at h

/-- Roman-numeral characters `[IVXLCDM]`. -/
def isRoman (c : Char) : Bool :=
  c = 'I' || c = 'V' || c = 'X' || c = 'L' || c = 'C' || c = 'D' || c = 'M'

/-- Group `([IVXLCDM]+)\b`: a maximal nonempty roman run whose following
character is not a word character. -/
def romanGroup (l : Str) : Option (Str × Str) :=
  let run := l.takeWhile isRoman
  if 1 ≤ run.length &&
      (match (l.dropWhile isRoman).head? with
       | some c => !isWordChar c
       | none => true) then
    some (run, l.dropWhile isRoman)
  else none

/-- Group `(\d+[A-Z]?)\b`: maximal digits, an optional uppercase letter,
then a word boundary. -/
def numLetterGroup (l : Str) : Option (Str × Str) :=
  let ds := l.takeWhile Char.isDigit
  let l1 := l.dropWhile Char.isDigit
  if ds.length = 0 then none
  else
    match l1.head? with
    | some u =>
      if ExtractSection.isUpperAZ u then
        if (match l1.tail.head? with
            | some c => !isWordChar c
            | none => true) then some (ds ++ [u], l1.tail)
        else none
      else if !isWordChar u then some (ds, l1) else none
    | none => some (ds, l1)

/-- Try the literal alternatives of a `\b(?:lit|...)\s+(group)` pattern in
order; on success return the captured group and the number of characters
consumed from `l`. -/
def litWsGroupGo (groupP : Str → Option (Str × Str)) (l : Str) :
    List Str → Option (Str × Nat)
  | [] => none
  | lit :: lits =>
    match litMatch lit l with
    | some rest =>
      (match (if 1 ≤ (rest.takeWhile pyWs).length then
                groupP (rest.dropWhile pyWs)
              else none) with
       | some (grp, rest2) => some (grp, l.length - rest2.length)
       | none => litWsGroupGo groupP l lits)
    | none => litWsGroupGo groupP l lits

/-- Matcher for `\b(?:literals)\s+(group)` patterns. -/
def litWsGroup (lits : List Str) (groupP : Str → Option (Str × Str))
    (prev : Option Char) (l : Str) : Option (Str × Nat) :=
  if wordBoundaryPre prev then litWsGroupGo groupP l lits else none

/-- `[A-Z\s]` class of the named-chapter pattern. -/
def upperOrWs (c : Char) : Bool := ExtractSection.isUpperAZ c || pyWs c

/-- Backtracking search for `([A-Z][A-Z\s]+)(?:\n|\s+-)` after the first
uppercase letter `a`: `run` is the maximal `[A-Z\s]` run after `a`, and
`k` candidate lengths are tried greedily from the longest down.  Returns
the group and the remainder after the consumed `\n` or `\s+-`. -/
def p3Search (a : Char) (run : Str) (after : Str) : Nat → Option (Str × Str)
  | 0 => none
  | k + 1 =>
    let suf := run.drop (k + 1) ++ after
    let withNl : Option (Str × Str) :=
      match suf with
      | '\n' :: s2 => some (a :: run.take (k + 1), s2)
      | _ =>
        if 1 ≤ (suf.takeWhile pyWs).length then
          match suf.dropWhile pyWs with
          | '-' :: s2 => some (a :: run.take (k + 1), s2)
          | _ => none
        else none
    match withNl with
    | some res => some res
    | none => p3Search a run after k

/-- Group-and-tail parser for the named-chapter pattern
`([A-Z][A-Z\s]+)(?:\n|\s+-)`. -/
def p3Group (l : Str) : Option (Str × Str) :=
  match l with
  | a :: r =>
    if ExtractSection.isUpperAZ a then
      let run := r.takeWhile upperOrWs
      p3Search a run (r.drop run.length) run.length
    else none
  | [] => none

/-- Chapter pattern 1: `\b(?:CHAPTER|Chapter|CHP\.?)\s+([IVXLCDM]+)\b`. -/
def tryChap1 (prev : Option Char) (l : Str) : Option (Str × Nat) :=
  litWsGroup ["CHAPTER".data, "Chapter".data, "CHP.".data, "CHP".data]
    romanGroup prev l

/-- Chapter pattern 2: `\b(?:CHAPTER|Chapter|CHP\.?)\s+(\d+[A-Z]?)\b`. -/
def tryChap2 (prev : Option Char) (l : Str) : Option (Str × Nat) :=
  litWsGroup ["CHAPTER".data, "Chapter".data, "CHP.".data, "CHP".data]
    numLetterGroup prev l

/-- Chapter pattern 3: `\bCHAPTER\s+([A-Z][A-Z\s]+)(?:\n|\s+-)`. -/
def tryChap3 (prev : Option Char) (l : Str) : Option (Str × Nat) :=
  litWsGroup ["CHAPTER".data] p3Group prev l

/-- Chapter pattern 4: `^\s*(\d+\.)\s+[A-Z]` (anchored: `re.MULTILINE` is
not set, so it can only match at position 0). -/
def tryChap4 (l : Str) : Option (Str × Nat) :=
  let l1 := l.dropWhile pyWs
  let ds := l1.takeWhile Char.isDigit
  if 1 ≤ ds.length then
    match l1.dropWhile Char.isDigit with
    | '.' :: l2 =>
      if 1 ≤ (l2.takeWhile pyWs).length then
        match (l2.dropWhile pyWs).head? with
        | some u =>
          if ExtractSection.isUpperAZ u then
            some (ds ++ ['.'], l.length - ((l2.dropWhile pyWs).tail).length)
          else none
        | none => none
      else none
    | _ => none
  else none

/-- Parse a maximal sequence of `(\d+)` chunks. -/
def digitParens : Str → List Str × Str
  | '(' :: r =>
    (if 1 ≤ (r.takeWhile Char.isDigit).length &&
        (r.dropWhile Char.isDigit).head? = some ')' then
      let p := digitParens ((r.dropWhile Char.isDigit).tail)
      (('(' :: r.takeWhile Char.isDigit ++ [')']) :: p.1, p.2)
    else ([], '(' :: r))
  | l => ([], l)
termination_by s => s.length
decreasing_by
  have h1 := lenDropWhileLe Char.isDigit r
  have h2 : ((r.dropWhile Char.isDigit).tail).length ≤
      (r.dropWhile Char.isDigit).length := by
    cases r.dropWhile Char.isDigit <;> simp
  simp only [List.length_cons]
  omega

/-- Parse a maximal sequence of `([a-z])` chunks. -/
def letterParens : Str → List Str × Str
  | '(' :: a :: ')' :: r2 =>
    if ExtractSections.isLowerAZ a then
      let p := letterParens r2
      (['(', a, ')'] :: p.1, p.2)
    else ([], '(' :: a :: ')' :: r2)
  | l => ([], l)

/-- One backtracking candidate of the standard-section group: keep `m`
letter-paren chunks (with all digit-paren chunks) and test the trailing
word boundary. -/
def s1TryM (base : Str) (dps lps : List Str) (l3 : Str) (m : Nat) :
    Option (Str × Str) :=
  let grp := base ++ dps.flatten ++ (lps.take m).flatten
  let rest := (lps.drop m).flatten ++ l3
  let endsParen := !dps.isEmpty || 1 ≤ m
  if (if endsParen then
        (match rest.head? with | some c => isWordChar c | none => false)
      else
        (match rest.head? with | some c => !isWordChar c | none => true)) then
    some (grp, rest)
  else none

/-- Greedy backtracking over the number of letter-paren chunks kept. -/
def s1SearchM (base : Str) (dps lps : List Str) (l3 : Str) :
    Nat → Option (Str × Str)
  | 0 => s1TryM base dps lps l3 0
  | m + 1 =>
    match s1TryM base dps lps l3 (m + 1) with
    | some res => some res
    | none => s1SearchM base dps lps l3 m

/-- Tail of the standard-section group after the digits and optional
letter: `(?:\(\d+\))*(?:\([a-z]\))*\b` with greedy backtracking.  When
every candidate that keeps at least one paren chunk fails, dropping all
of them always satisfies the boundary (a word character followed by
`(`). -/
def s1Tail (base : Str) (l : Str) : Option (Str × Str) :=
  let dp := digitParens l
  let lp := letterParens dp.2
  match s1SearchM base dp.1 lp.1 lp.2 lp.1.length with
  | some res => some res
  | none =>
    if !dp.1.isEmpty then some (base, dp.1.flatten ++ lp.1.flatten ++ lp.2)
    else none

/-- Group `(\d+[A-Z]?(?:\(\d+\))*(?:\([a-z]\))*)\b` of the
standard-section pattern. -/
def s1Group (l : Str) : Option (Str × Str) :=
  let ds := l.takeWhile Char.isDigit
  if ds.length = 0 then none
  else
    let l1 := l.dropWhile Char.isDigit
    match l1.head? with
    | some u =>
      if ExtractSection.isUpperAZ u then s1Tail (ds ++ [u]) l1.tail
      else s1Tail ds l1
    | none => s1Tail ds l1

/-- Section pattern 1:
`\b(?:Section|SECTION|Sec\.|SEC\.|Clause|CLAUSE)\s+(...)\b`. -/
def trySec1 (prev : Option Char) (l : Str) : Option (Str × Nat) :=
  litWsGroup ["Section".data, "SECTION".data, "Sec.".data, "SEC.".data,
    "Clause".data, "CLAUSE".data] s1Group prev l

/-- Section pattern 2: `^\s*(\d+\.\d+\.?)\s+[A-Z]` (anchored at 0). -/
def tryS2 (l : Str) : Option (Str × Nat) :=
  let l1 := l.dropWhile pyWs
  let d1 := l1.takeWhile Char.isDigit
  if 1 ≤ d1.length then
    match l1.dropWhile Char.isDigit with
    | '.' :: l2 =>
      let d2 := l2.takeWhile Char.isDigit
      if 1 ≤ d2.length then
        let l3 := l2.dropWhile Char.isDigit
        let withDot : Option (Str × Nat) :=
          match l3 with
          | '.' :: l4 =>
            if 1 ≤ (l4.takeWhile pyWs).length then
              match (l4.dropWhile pyWs).head? with
              | some u =>
                if ExtractSection.isUpperAZ u then
                  some (d1 ++ '.' :: d2 ++ ['.'],
                    l.length - ((l4.dropWhile pyWs).tail).length)
                else none
              | none => none
            else none
          | _ => none
        match withDot with
        | some res => some res
        | none =>
          if 1 ≤ (l3.takeWhile pyWs).length then
            match (l3.dropWhile pyWs).head? with
            | some u =>
              if ExtractSection.isUpperAZ u then
                some (d1 ++ '.' :: d2,
                  l.length - ((l3.dropWhile pyWs).tail).length)
              else none
            | none => none
          else none
      else none
    | _ => none
  else none

/-- Section pattern 3: `\b(?:Article|ARTICLE)\s+(\d+[A-Z]?)\b`. -/
def trySec3 (prev : Option Char) (l : Str) : Option (Str × Nat) :=
  litWsGroup ["Article".data, "ARTICLE".data] numLetterGroup prev l

/-- Parse the maximal `(?:\.\d+)*` tail of the special-format group. -/
def dotDigitRuns : Str → Str × Str
  | '.' :: r =>
    (let ds := r.takeWhile Char.isDigit
     if 1 ≤ ds.length then
       let p := dotDigitRuns (r.dropWhile Char.isDigit)
       ('.' :: ds ++ p.1, p.2)
     else ([], '.' :: r))
  | l => ([], l)
termination_by s => s.length
decreasing_by
  have := lenDropWhileLe Char.isDigit r
  simp only [List.length_cons]
  omega

/-- Parse the maximal `(?:\([a-z0-9]\))*` tail of the special-format
group. -/
def alnumParens : Str → Str × Str
  | '(' :: a :: ')' :: r2 =>
    if ExtractSections.isLowerAZ a || Char.isDigit a then
      let p := alnumParens r2
      ('(' :: a :: ')' :: p.1, p.2)
    else ([], '(' :: a :: ')' :: r2)
  | l => ([], l)

/-- Group `(\d+(?:\.\d+)*(?:\([a-z0-9]\))*)` of the special-format
pattern (no trailing boundary, everything greedy). -/
def s4Group (l : Str) : Option (Str × Str) :=
  let ds := l.takeWhile Char.isDigit
  if ds.length = 0 then none
  else
    let p1 := dotDigitRuns (l.dropWhile Char.isDigit)
    let p2 := alnumParens p1.2
    some (ds ++ p1.1 ++ p2.1, p2.2)

/-- Try the literal alternatives of section pattern 4 in order
(`(?:§|Sec\.|Section)\s*(...)`, no word boundaries, optional blank). -/
def s4Go (l : Str) : List Str → Option (Str × Nat)
  | [] => none
  | lit :: lits =>
    match litMatch lit l with
    | some rest =>
      (match s4Group (rest.dropWhile pyWs) with
       | some (grp, rest2) => some (grp, l.length - rest2.length)
       | none => s4Go l lits)
    | none => s4Go l lits

/-- Section pattern 4: `(?:§|Sec\.|Section)\s*(\d+(?:\.\d+)*(?:\([a-z0-9]\))*)`. -/
def trySec4 (_prev : Option Char) (l : Str) : Option (Str × Nat) :=
  s4Go l ["§".data, "Sec.".data, "Section".data]

/-- `re.finditer` driver: attempt the matcher at every position, record
`(m.start(), m.group(1))` and resume after the consumed characters.
Every matcher consumes at least one character; the `max` with 1 merely
witnesses this for termination. -/
def finditerGo (tryAt : Option Char → Str → Option (Str × Nat)) :
    Nat → Option Char → Str → List (Nat × Str)
  | _, _, [] => []
  | pos, prev, c :: r =>
    match tryAt prev (c :: r) with
    | some (grp, consumed) =>
      let k := max consumed 1
      (pos, grp) :: finditerGo tryAt (pos + k) ((c :: r).take k).getLast?
        ((c :: r).drop k)
    | none => finditerGo tryAt (pos + 1) (some c) r
termination_by _ _ s => s.length
decreasing_by
  · simp only [List.length_drop, List.length_cons]
    omega
  · simp only [List.length_cons]
    omega

/-- `re.finditer` for an anchored pattern (one with a `^` and no
`re.MULTILINE`): at most one match, at position 0. -/
def anchoredIter (tryAt : Str → Option (Str × Nat)) (t : Str) :
    List (Nat × Str) :=
  match tryAt t with
  | some (grp, _) => [(0, grp)]
  | none => []

/-- Insert or overwrite one key of a position-indexed dictionary. -/
def upsert (d : List (Nat × Str)) (k : Nat) (v : Str) : List (Nat × Str) :=
  if d.any (fun p => p.1 = k) then
    d.map (fun p => if p.1 = k then (k, v) else p)
  else d ++ [(k, v)]

/-- Record a batch of matches into the dictionary in order. -/
def upsertAll (d : List (Nat × Str)) (ms : List (Nat × Str)) :
    List (Nat × Str) :=
  ms.foldl (fun d m => upsert d m.1 m.2) d

/-- `chapters[m.start()] = m.group(1)` over the four chapter patterns in
source order. -/
def chapterDict (t : Str) : List (Nat × Str) :=
  upsertAll (upsertAll (upsertAll (upsertAll []
    (finditerGo tryChap1 0 none t))
    (finditerGo tryChap2 0 none t))
    (finditerGo tryChap3 0 none t))
    (anchoredIter tryChap4 t)

/-- `sections[m.start()] = m.group(1)` over the four section patterns in
source order. -/
def sectionDict (t : Str) : List (Nat × Str) :=
  upsertAll (upsertAll (upsertAll (upsertAll []
    (finditerGo trySec1 0 none t))
    (anchoredIter tryS2 t))
    (finditerGo trySec3 0 none t))
    (finditerGo trySec4 0 none t)

/-- Sorted key list of a position dictionary. -/
def sortedKeys (d : List (Nat × Str)) : List Nat :=
  (d.map Prod.fst).mergeSort (fun a b => decide (a ≤ b))

/-- Dictionary lookup (keys looked up always exist). -/
def dictLookup (d : List (Nat × Str)) (k : Nat) : Str :=
  ((d.find? (fun p => p.1 = k)).map Prod.snd).getD []

/-- `for pos in sorted(d.keys()): if pos <= para_pos: cur = d[pos]`. -/
def advanceLabel (d : List (Nat × Str)) (paraPos : Int) (cur : Str) : Str :=
  (sortedKeys d).foldl
    (fun c pos => if Int.ofNat pos ≤ paraPos then dictLookup d pos else c) cur

/-- Python `text.split('\n\n')` (keeps empty pieces). -/
def splitOnNN : Str → List Str
  | [] => [[]]
  | c :: r =>
    if ExtractSections.hasNN (c :: r) then [] :: splitOnNN r.tail
    else
      match splitOnNN r with
      | p :: ps => (c :: p) :: ps
      | [] => [[c]]
termination_by s => s.length
decreasing_by
  · cases r with
    | nil => simp [ExtractSections.hasNN] at *
    | cons b t => simp only [List.tail_cons, List.length_cons]; omega
  · simp only [List.length_cons]
    omega

/-- Python `p.split('\n')` (keeps empty pieces). -/
def splitOnNl : Str → List Str
  | [] => [[]]
  | c :: r =>
    if c = '\n' then [] :: splitOnNl r
    else
      match splitOnNl r with
      | p :: ps => (c :: p) :: ps
      | [] => [[c]]

/-- Paragraph extraction of `process_text`: split on blank lines, keep
non-blank pieces, and further split each on single newlines, keeping
non-blank sub-paragraphs. -/
def paragraphsOf (t : Str) : List Str :=
  ((splitOnNN t).map (fun p =>
    if pyStrip p ≠ [] then (splitOnNl p).filter (fun sp => pyStrip sp ≠ [])
    else [])).flatten

/-- Python `hay.find(needle)` — index of the first occurrence, `-1` when
absent. -/
def findSubGo (needle : Str) : Nat → Str → Int
  | i, [] => if needle.isEmpty then Int.ofNat i else -1
  | i, c :: r =>
    if needle.isPrefixOf (c :: r) then Int.ofNat i
    else findSubGo needle (i + 1) r

/-- Python `hay.find(needle)`. -/
def findSub (hay needle : Str) : Int := findSubGo needle 0 hay

/-- Force-split loop for an over-long sentence:
`for i in range(0, len(words), max_length - overlap_words)` with the
`MIN_CHUNK_WORDS` filter.  The `max step 1` only witnesses termination:
at the only call site the step is `450 - 50 = 400`. -/
def forceGo (maxL step : Nat) : List Str → List Str
  | [] => []
  | w :: ws =>
    (let chunk := sepJoin ((w :: ws).take maxL)
     let rest := forceGo maxL step ((w :: ws).drop (max step 1))
     if MIN_CHUNK_WORDS ≤ (pyWords chunk).length then chunk :: rest else rest)
termination_by s => s.length
decreasing_by
  simp only [List.length_drop, List.length_cons]
  omega

/-- Sentence loop of `split_large_paragraph`: `cur` is `current_chunk`;
emitted chunks appear in order. -/
def slpGo (maxL overlap : Nat) : List Str → Str → List Str
  | [], cur =>
    if cur ≠ [] && MIN_CHUNK_WORDS ≤ (pyWords cur).length then [pyStrip cur]
    else []
  | s :: ss, cur =>
    let sw := (pyWords s).length
    if sw > maxL then
      forceGo maxL (maxL - overlap) (pyWords s) ++ slpGo maxL overlap ss cur
    else if (pyWords cur).length + sw ≤ maxL then
      slpGo maxL overlap ss (if cur ≠ [] then cur ++ ' ' :: s else s)
    else
      (if cur ≠ [] && MIN_CHUNK_WORDS ≤ (pyWords cur).length then [pyStrip cur]
       else []) ++
        slpGo maxL overlap ss
          (let op := pyWords cur
           if overlap < op.length then
             (if overlap = 0 then sepJoin op
              else sepJoin (op.drop (op.length - overlap))) ++ ' ' :: s
           else s)

/-- `split_large_paragraph` from `Extract_Data_InLegalBert.py`. -/
def split_large_paragraph (para : Str) (max_length : Nat) : List Str :=
  if (pyWords para).length ≤ max_length then [para]
  else
    slpGo max_length (min 50 (max_length / 4))
      (SplitSections.sentSplitGo [] para) []

/-- One `re.match` test of the `is_header` check: does any of the eight
chapter/section patterns match at the very start of the stripped
paragraph? -/
def isHeader (para : Str) : Bool :=
  let p := pyStrip para
  (tryChap1 none p).isSome || (tryChap2 none p).isSome ||
    (tryChap3 none p).isSome || (tryChap4 p).isSome ||
    (trySec1 none p).isSome || (tryS2 p).isSome ||
    (trySec3 none p).isSome || (trySec4 none p).isSome

/-- Per-chunk metadata record of `process_text`. -/
structure ChunkMeta where
  source : Str
  chapter : Str
  «section» : Str
deriving DecidableEq

/-- The `"Unknown"` sentinel labels. -/
def unknownLabel : Str := "Unknown".data

/-- Paragraph loop of `process_text`: track the current chapter/section
labels, skip short header paragraphs, split large paragraphs and keep
sub-chunks of at least `MIN_CHUNK_WORDS` words. -/
def ptGo (t src : Str) (chapters sections : List (Nat × Str)) :
    List Str → Str → Str → List Str × List ChunkMeta
  | [], _, _ => ([], [])
  | para :: ps, curCh, curSec =>
    let paraPos := findSub t para
    let ch := advanceLabel chapters paraPos curCh
    let sec := advanceLabel sections paraPos curSec
    if isHeader para && (pyWords para).length < MIN_CHUNK_WORDS then
      ptGo t src chapters sections ps ch sec
    else
      let subs := (split_large_paragraph para MAX_CHUNK_LENGTH).filter
        (fun sc => MIN_CHUNK_WORDS ≤ (pyWords sc).length)
      let rest := ptGo t src chapters sections ps ch sec
      (subs ++ rest.1, subs.map (fun _ => ⟨src, ch, sec⟩) ++ rest.2)

/-- `process_text` from `Extract_Data_InLegalBert.py` as a pure function
returning the chunk list and the metadata list. -/
def process_text (text : Str) (doc_source : Str) :
    List Str × List ChunkMeta :=
  let t := cleanText text
  ptGo t doc_source (chapterDict t) (sectionDict t) (paragraphsOf t)
    unknownLabel unknownLabel

end InLegalBert

/-!
## Whitespace-word foundations

`pyWords` (Python `str.split()`) captures whitespace-normalized content:
two strings have the same `pyWords` exactly when they are equal up to
whitespace normalization.
-/

/-- `takeWhile` ignores everything from a failing element on. -/
theorem twAppendNeg (p : Char → Bool) (w : Char) (hw : p w = false) :
    ∀ x y : Str, (x ++ w :: y).takeWhile p = x.takeWhile p := by
  intro x y
  induction x with
  | nil => simp [List.takeWhile, hw]
  | cons c r ih =>
    simp only [List.cons_append, List.takeWhile]
    cases p c <;> simp [ih]

/-- `dropWhile` stops no later than a failing element. -/
theorem dwAppendNeg (p : Char → Bool) (w : Char) (hw : p w = false) :
    ∀ x y : Str, (x ++ w :: y).dropWhile p = x.dropWhile p ++ w :: y := by
  intro x y
  induction x with
  | nil => simp [List.dropWhile, hw]
  | cons c r ih =>
    simp only [List.cons_append, List.dropWhile]
    cases p c <;> simp [ih]

/-- Splitting at a whitespace character splits the word list. -/
theorem pyWordsAppendWs (w : Char) (hw : pyWs w = true) :
    ∀ (n : Nat) (a : Str), a.length ≤ n →
      ∀ b : Str, pyWords (a ++ w :: b) = pyWords a ++ pyWords b := by
  intro n
  induction n with
  | zero =>
    intro a ha b
    have : a = [] := List.length_eq_zero.mp (Nat.le_zero.mp ha)
    subst this
    simp [pyWords, hw]
  | succ n ih =>
    intro a ha b
    cases a with
    | nil => simp [pyWords, hw]
    | cons c r =>
      by_cases hc : pyWs c = true
      · have h2 := ih r (by simp at ha; omega) b
        simp [List.cons_append, pyWords, hc, h2]
      · simp only [List.cons_append, pyWords, hc, if_false, Bool.false_eq_true]
        rw [twAppendNeg _ w (by simp [hw]) r b, dwAppendNeg _ w (by simp [hw]) r b]
        rw [ih (r.dropWhile (fun x => !pyWs x))
          (by have := lenDropWhileLe (fun x => !pyWs x) r; simp at ha; omega) b]

/-- Splitting at a whitespace character splits the word list. -/
theorem pyWords_append_ws (w : Char) (hw : pyWs w = true) (a b : Str) :
    pyWords (a ++ w :: b) = pyWords a ++ pyWords b :=
  pyWordsAppendWs w hw a.length a (Nat.le_refl _) b

/-- A whitespace-only string has no words. -/
theorem pyWords_allws (t : Str) (h : t.all pyWs = true) : pyWords t = [] := by
  induction t with
  | nil => simp [pyWords]
  | cons c r ih =>
    simp only [List.all_cons, Bool.and_eq_true] at h
    simp [pyWords, h.1, ih h.2]

/-- Appending trailing whitespace does not change the word list. -/
theorem pyWords_append_allws (a t : Str) (h : t.all pyWs = true) :
    pyWords (a ++ t) = pyWords a := by
  cases t with
  | nil => simp
  | cons w t' =>
    simp only [List.all_cons, Bool.and_eq_true] at h
    rw [pyWords_append_ws w h.1 a t', pyWords_allws t' h.2]
    simp

/-- Dropping leading whitespace does not change the word list. -/
theorem pyWords_dropWhile_ws (l : Str) :
    pyWords (l.dropWhile pyWs) = pyWords l := by
  induction l with
  | nil => simp [List.dropWhile]
  | cons c r ih =>
    simp only [List.dropWhile]
    by_cases hc : pyWs c = true
    · simp only [hc]
      rw [ih]
      simp [pyWords, hc]
    · simp only [eq_false_of_ne_true hc]

/-- Stripping does not change the word list. -/
theorem pyWords_pyStrip (s : Str) : pyWords (pyStrip s) = pyWords s := by
  unfold pyStrip
  have hdecomp := List.takeWhile_append_dropWhile (p := pyWs)
    (l := (s.dropWhile pyWs).reverse)
  have hsplit : s.dropWhile pyWs =
      ((s.dropWhile pyWs).reverse.dropWhile pyWs).reverse ++
      ((s.dropWhile pyWs).reverse.takeWhile pyWs).reverse := by
    have := congrArg List.reverse hdecomp
    simp only [List.reverse_append] at this
    rw [this, List.reverse_reverse]
  have hall : (((s.dropWhile pyWs).reverse.takeWhile pyWs).reverse).all pyWs = true := by
    rw [List.all_reverse, List.all_eq_true]
    intro x hx
    exact List.mem_takeWhile_imp hx
  calc pyWords ((s.dropWhile pyWs).reverse.dropWhile pyWs).reverse
      = pyWords (((s.dropWhile pyWs).reverse.dropWhile pyWs).reverse ++
          ((s.dropWhile pyWs).reverse.takeWhile pyWs).reverse) :=
        (pyWords_append_allws _ _ hall).symm
    _ = pyWords (s.dropWhile pyWs) := by rw [← hsplit]
    _ = pyWords s := pyWords_dropWhile_ws s

/-- Every produced word is nonempty and whitespace-free. -/
theorem pyWords_solid (s : Str) :
    ∀ w ∈ pyWords s, w ≠ [] ∧ w.all (fun c => !pyWs c) = true := by
  induction s using pyWords.induct with
  | case1 => simp [pyWords]
  | case2 c r hc ih =>
    intro w hw
    rw [pyWords, if_pos hc] at hw
    exact ih w hw
  | case3 c r hc ih =>
    intro w hw
    rw [pyWords, if_neg hc] at hw
    rcases List.mem_cons.mp hw with h | h
    · subst h
      refine ⟨by simp, ?_⟩
      simp only [List.all_cons, Bool.and_eq_true]
      refine ⟨by simp_all, ?_⟩
      rw [List.all_eq_true]
      intro x hx
      have := List.mem_takeWhile_imp (p := fun c => !pyWs c) hx
      simpa using this
    · exact ih w h

/-- A nonempty whitespace-free string is its own single word. -/
theorem pyWords_of_solid (w : Str) (hne : w ≠ [])
    (hall : w.all (fun c => !pyWs c) = true) : pyWords w = [w] := by
  cases w with
  | nil => exact absurd rfl hne
  | cons c r =>
    simp only [List.all_cons, Bool.and_eq_true] at hall
    have hc : pyWs c = false := by
      cases h : pyWs c
      · rfl
      · rw [h] at hall; simp at hall
    rw [pyWords, if_neg (by simp [hc])]
    have htw : r.takeWhile (fun x => !pyWs x) = r :=
      List.takeWhile_eq_self_iff.mpr (fun x hx => by
        have := List.all_eq_true.mp hall.2 x hx
        simpa using this)
    have hdw : r.dropWhile (fun x => !pyWs x) = [] :=
      List.dropWhile_eq_nil_iff.mpr (fun x hx => by
        have := List.all_eq_true.mp hall.2 x hx
        simpa using this)
    rw [htw, hdw]
    simp [pyWords]

/-- Word-splitting a list of words gives back the same list. -/
theorem flatten_map_pyWords_of_solid (ws : List Str)
    (h : ∀ w ∈ ws, w ≠ [] ∧ w.all (fun c => !pyWs c) = true) :
    (ws.map pyWords).flatten = ws := by
  induction ws with
  | nil => simp
  | cons w rest ih =>
    have hw := h w (by simp)
    rw [List.map_cons, List.flatten_cons, pyWords_of_solid w hw.1 hw.2]
    rw [ih (fun x hx => h x (by simp [hx]))]
    simp

/-- The words of each word of a string give back its words. -/
theorem pyWords_flatten_self (s : Str) :
    ((pyWords s).map pyWords).flatten = pyWords s :=
  flatten_map_pyWords_of_solid (pyWords s) (pyWords_solid s)

/-- Joining with single spaces word-splits to the concatenation. -/
theorem pyWords_sepJoin (l : List Str) :
    pyWords (sepJoin l) = wordsOfChunks l := by
  induction l with
  | nil => simp [sepJoin, wordsOfChunks, pyWords]
  | cons x xs ih =>
    cases xs with
    | nil => simp [sepJoin, wordsOfChunks]
    | cons y ys =>
      rw [sepJoin, pyWords_append_ws ' ' (by simp [pyWs]) x (sepJoin (y :: ys)), ih]
      simp [wordsOfChunks]

/-- A string has a word exactly when it has a non-whitespace character. -/
theorem pyWords_nil_iff (s : Str) : pyWords s = [] ↔ s.all pyWs = true := by
  constructor
  · intro h
    induction s using pyWords.induct with
    | case1 => simp
    | case2 c r hc ih =>
      rw [pyWords, if_pos hc] at h
      simp [hc, ih h]
    | case3 c r hc ih =>
      rw [pyWords, if_neg hc] at h
      simp at h
  · exact pyWords_allws s

/-- `hasSolid` is the negation of all-whitespace. -/
theorem hasSolid_iff (s : Str) : hasSolid s = true ↔ ¬ s.all pyWs = true := by
  unfold hasSolid
  rw [List.any_eq_true]
  constructor
  · rintro ⟨x, hx, hpx⟩ hall
    have := List.all_eq_true.mp hall x hx
    simp_all
  · intro h
    by_contra hno
    push_neg at hno
    apply h
    rw [List.all_eq_true]
    intro x hx
    have := hno x hx
    simp_all

/-- A solid string keeps a word after stripping. -/
theorem pyStrip_ne_nil_of_solid (s : Str) (h : hasSolid s = true) :
    pyStrip s ≠ [] := by
  intro hcon
  have h1 : pyWords (pyStrip s) = [] := by rw [hcon]; simp [pyWords]
  rw [pyWords_pyStrip] at h1
  exact (hasSolid_iff s).mp h ((pyWords_nil_iff s).mp h1)

/-- Concatenation with a solid part is solid. -/
theorem hasSolid_append_right (a b : Str) (h : hasSolid b = true) :
    hasSolid (a ++ b) = true := by
  unfold hasSolid at *
  rw [List.any_eq_true] at *
  obtain ⟨x, hx, hpx⟩ := h
  exact ⟨x, by simp [hx], hpx⟩

/-- Stripping preserves solidity. -/
theorem hasSolid_pyStrip (s : Str) (h : hasSolid s = true) :
    hasSolid (pyStrip s) = true := by
  by_contra hcon
  have h1 : (pyStrip s).all pyWs = true := by
    by_contra h2
    exact hcon ((hasSolid_iff _).mpr h2)
  have h2 : pyWords (pyStrip s) = [] := pyWords_allws _ h1
  rw [pyWords_pyStrip] at h2
  have h3 := (pyWords_nil_iff s).mp h2
  exact (hasSolid_iff s).mp h h3

/-- The head of a dropped-prefix list fails the predicate. -/
theorem head_dropWhile_false (p : Char → Bool) (l : Str) (c : Char)
    (h : (l.dropWhile p).head? = some c) : p c = false := by
  have := List.head?_dropWhile_not p l
  rw [h] at this
  exact this

/-- `dropWhile` is the identity when the head fails the predicate. -/
theorem dropWhile_eq_self_of_head (p : Char → Bool) (l : Str)
    (h : ∀ c, l.head? = some c → p c = false) : l.dropWhile p = l := by
  cases l with
  | nil => simp
  | cons c r =>
    have := h c rfl
    simp [List.dropWhile, this]

/-- `dropWhile` is idempotent. -/
theorem dropWhile_idem (p : Char → Bool) (l : Str) :
    (l.dropWhile p).dropWhile p = l.dropWhile p :=
  dropWhile_eq_self_of_head p _ (fun c hc => head_dropWhile_false p l c hc)

/-- The dropped suffix keeps the last element. -/
theorem getLast?_dropWhile (p : Char → Bool) (l : Str)
    (h : l.dropWhile p ≠ []) : (l.dropWhile p).getLast? = l.getLast? := by
  conv_rhs => rw [← List.takeWhile_append_dropWhile (p := p) (l := l)]
  rw [List.getLast?_append]
  cases hh : (l.dropWhile p).getLast? with
  | none => exact absurd (List.getLast?_eq_none_iff.mp hh) h
  | some c => simp [Option.or]

/-- The first character of a stripped string is not whitespace. -/
theorem pyStrip_head (s : Str) :
    ∀ c, (pyStrip s).head? = some c → pyWs c = false := by
  intro c hc
  unfold pyStrip at hc
  rw [List.head?_reverse] at hc
  have hne : (s.dropWhile pyWs).reverse.dropWhile pyWs ≠ [] := by
    intro hcon
    rw [hcon] at hc
    simp at hc
  rw [getLast?_dropWhile pyWs _ hne, List.getLast?_reverse] at hc
  exact head_dropWhile_false pyWs s c hc

/-- Stripping is idempotent. -/
theorem pyStrip_idem (s : Str) : pyStrip (pyStrip s) = pyStrip s := by
  have hstep1 : (pyStrip s).dropWhile pyWs = pyStrip s :=
    dropWhile_eq_self_of_head pyWs _ (pyStrip_head s)
  show (((pyStrip s).dropWhile pyWs).reverse.dropWhile pyWs).reverse = pyStrip s
  rw [hstep1]
  unfold pyStrip
  rw [List.reverse_reverse, dropWhile_idem]

/-- Solidity is reversal-invariant. -/
theorem hasSolid_reverse (s : Str) : hasSolid s.reverse = hasSolid s := by
  unfold hasSolid
  exact List.any_reverse

/-!
## Sentence splitter: word preservation and solidity
-/

/-- Unfolding of `sentSplitGo` on the empty list. -/
theorem sentSplitGo_eq_nil (acc : Str) :
    SplitSections.sentSplitGo acc [] = [acc.reverse] := by
  rw [SplitSections.sentSplitGo.eq_def]

/-- Unfolding of `sentSplitGo` on a cons. -/
theorem sentSplitGo_eq_cons (acc : Str) (c : Char) (rest : Str) :
    SplitSections.sentSplitGo acc (c :: rest) =
      if pyWs c &&
          (match acc with
           | p :: _ => SplitSections.sentPunct p
           | [] => false) then
        acc.reverse :: SplitSections.sentSplitGo [] (List.dropWhile pyWs rest)
      else SplitSections.sentSplitGo (c :: acc) rest := by
  rw [SplitSections.sentSplitGo.eq_def]

/-- The sentence splitter only deletes whitespace: the words of its pieces
are exactly the words of the input. -/
theorem sentSplitGo_words (rest acc : Str) :
    ((SplitSections.sentSplitGo acc rest).map pyWords).flatten =
      pyWords (acc.reverse ++ rest) := by
  induction acc, rest using SplitSections.sentSplitGo.induct with
  | case1 acc => simp [sentSplitGo_eq_nil]
  | case2 acc c rest hcond ih =>
    rw [sentSplitGo_eq_cons, if_pos hcond]
    simp only [List.map_cons, List.flatten_cons]
    rw [ih]
    simp only [List.reverse_nil, List.nil_append]
    rw [pyWords_dropWhile_ws]
    have hc : pyWs c = true := by
      rcases Bool.and_eq_true _ _ |>.mp hcond with ⟨h1, _⟩
      exact h1
    rw [pyWords_append_ws c hc acc.reverse rest]
  | case3 acc c rest hcond ih =>
    rw [sentSplitGo_eq_cons, if_neg (by simp_all)]
    rw [ih]
    simp only [List.reverse_cons]
    rw [List.append_assoc]
    simp

/-- Empty pieces contribute no words. -/
theorem flatten_map_pyWords_filter (l : List Str) :
    (((l.filter (fun s => s ≠ [])).map pyWords).flatten) =
      ((l.map pyWords).flatten) := by
  induction l with
  | nil => simp
  | cons x xs ih =>
    simp only [ne_eq, decide_not] at ih ⊢
    by_cases hx : x = []
    · subst hx
      simp [List.filter_cons, pyWords, ih]
    · simp [List.filter_cons, hx, ih]

/-- `split_into_sentences` preserves words. -/
theorem split_into_sentences_words (t : Str) :
    ((SplitSections.split_into_sentences t).map pyWords).flatten = pyWords t := by
  unfold SplitSections.split_into_sentences
  rw [flatten_map_pyWords_filter, sentSplitGo_words]
  simp only [List.reverse_nil, List.nil_append]
  exact pyWords_pyStrip t

/-- Every nonempty sentence piece contains a non-whitespace character. -/
theorem sentSplitGo_solid (acc rest : Str) :
    (acc ≠ [] → hasSolid acc = true) →
    (acc = [] → ∀ c, rest.head? = some c → pyWs c = false) →
    ∀ p ∈ SplitSections.sentSplitGo acc rest, p ≠ [] → hasSolid p = true := by
  induction acc, rest using SplitSections.sentSplitGo.induct with
  | case1 acc =>
    intro h1 _ p hp hpne
    rw [sentSplitGo_eq_nil] at hp
    simp only [List.mem_singleton] at hp
    subst hp
    rw [hasSolid_reverse]
    exact h1 (by intro hcon; subst hcon; simp at hpne)
  | case2 acc c rest hcond ih =>
    intro h1 _ p hp hpne
    rw [sentSplitGo_eq_cons, if_pos hcond] at hp
    have haccne : acc ≠ [] := by
      intro hcon
      subst hcon
      simp at hcond
    rcases List.mem_cons.mp hp with h | h
    · subst h
      rw [hasSolid_reverse]
      exact h1 haccne
    · exact ih (by intro hcon; exact absurd rfl hcon)
        (fun _ c' hc' => head_dropWhile_false pyWs rest c' hc') p h hpne
  | case3 acc c rest hcond ih =>
    intro h1 h2 p hp hpne
    rw [sentSplitGo_eq_cons, if_neg hcond] at hp
    refine ih ?_ (by intro hcon; exact absurd hcon (by simp)) p hp hpne
    intro _
    by_cases hacc : acc = []
    · subst hacc
      have hc := h2 rfl c rfl
      simp [hasSolid, hc]
    · have := h1 hacc
      simp only [hasSolid, List.any_cons] at *
      simp [this]

/-!
## Chunker: word preservation (no content loss)
-/

/-- The word-level fallback loop preserves words. -/
theorem slsGo_words (encode : Str → Nat) (mc : Int) (ws : List Str) :
    ∀ (cur : Str) (curLen : Nat),
      ((SplitSections.slsGo encode mc ws cur curLen).map pyWords).flatten =
        pyWords cur ++ (ws.map pyWords).flatten := by
  induction ws with
  | nil =>
    intro cur curLen
    by_cases hc : cur = []
    · subst hc
      simp [SplitSections.slsGo, pyWords]
    · simp [SplitSections.slsGo, hc, pyWords_pyStrip]
  | cons w ws ih =>
    intro cur curLen
    rw [SplitSections.slsGo]
    split
    · by_cases hc : cur = []
      · subst hc
        simp [ih, pyWords]
      · simp [hc, ih, pyWords_pyStrip]
    · rw [ih]
      rw [pyWords_append_ws ' ' (by simp [pyWs]) cur w]
      simp

/-- `split_long_sentence` preserves words. -/
theorem split_long_sentence_words (encode : Str → Nat) (m : Nat) (s : Str) :
    ((SplitSections.split_long_sentence encode m s).map pyWords).flatten =
      pyWords s := by
  unfold SplitSections.split_long_sentence
  rw [slsGo_words]
  simp [pyWords, pyWords_flatten_self]

/-- The sentence loop preserves words. -/
theorem sasGo_words (encode : Str → Nat) (m : Nat) (ss : List Str) :
    ∀ cur : Str,
      ((SplitSections.sasGo encode m ss cur).map pyWords).flatten =
        pyWords cur ++ (ss.map pyWords).flatten := by
  induction ss with
  | nil =>
    intro cur
    by_cases hc : cur = []
    · subst hc
      simp [SplitSections.sasGo, pyWords]
    · simp [SplitSections.sasGo, hc, pyWords_pyStrip]
  | cons s ss ih =>
    intro cur
    rw [SplitSections.sasGo]
    by_cases hb : encode s > m
    · rw [if_pos hb]
      by_cases hc : cur = []
      · subst hc
        simp [ih, split_long_sentence_words, pyWords]
      · simp [hc, ih, split_long_sentence_words, pyWords_pyStrip, pyWords]
    · rw [if_neg hb]
      by_cases ht : encode (pyStrip (cur ++ ' ' :: s)) > m
      · rw [if_pos ht]
        by_cases hc : cur = []
        · subst hc
          simp [ih, pyWords]
        · simp [hc, ih, pyWords_pyStrip]
      · rw [if_neg ht]
        rw [ih, pyWords_pyStrip, pyWords_append_ws ' ' (by simp [pyWs]) cur s]
        simp

/-- The full chunker preserves words. -/
theorem sentence_aware_split_words (encode : Str → Nat) (m : Nat)
    (content : Str) :
    wordsOfChunks (SplitSections.sentence_aware_split encode m content) =
      pyWords content := by
  unfold SplitSections.sentence_aware_split wordsOfChunks
  rw [sasGo_words]
  simp only [pyWords, List.nil_append]
  exact split_into_sentences_words content

/-!
## Chunker: emitted chunks are nonempty and trimmed
-/

/-- A nonempty all-non-whitespace string is solid. -/
theorem hasSolid_of_word (w : Str) (hne : w ≠ [])
    (hall : w.all (fun c => !pyWs c) = true) : hasSolid w = true := by
  cases w with
  | nil => exact absurd rfl hne
  | cons c r =>
    simp only [List.all_cons, Bool.and_eq_true] at hall
    simp [hasSolid, hall.1]

/-- Consing onto a solid string stays solid. -/
theorem hasSolid_cons (c : Char) (s : Str) (h : hasSolid s = true) :
    hasSolid (c :: s) = true := by
  simp only [hasSolid, List.any_cons] at *
  simp [h]

/-- Fallback sub-chunks are nonempty and stripped. -/
theorem slsGo_trimmed (encode : Str → Nat) (mc : Int) (ws : List Str) :
    ∀ (cur : Str) (curLen : Nat),
      (∀ w ∈ ws, w ≠ [] ∧ w.all (fun c => !pyWs c) = true) →
      (cur ≠ [] → hasSolid cur = true) →
      ∀ c ∈ SplitSections.slsGo encode mc ws cur curLen,
        c ≠ [] ∧ pyStrip c = c := by
  induction ws with
  | nil =>
    intro cur curLen _ hcur c hc
    rw [SplitSections.slsGo] at hc
    by_cases h : cur = []
    · subst h
      simp at hc
    · rw [if_pos h] at hc
      simp only [List.mem_singleton] at hc
      subst hc
      exact ⟨pyStrip_ne_nil_of_solid cur (hcur h), pyStrip_idem cur⟩
  | cons w ws ih =>
    intro cur curLen hws hcur c hc
    have hw := hws w (by simp)
    have hwsolid : hasSolid w = true := hasSolid_of_word w hw.1 hw.2
    rw [SplitSections.slsGo] at hc
    split at hc
    · rcases List.mem_append.mp hc with h | h
      · by_cases hcn : cur = []
        · subst hcn
          simp at h
        · rw [if_pos hcn] at h
          simp only [List.mem_singleton] at h
          subst h
          exact ⟨pyStrip_ne_nil_of_solid cur (hcur hcn), pyStrip_idem cur⟩
      · exact ih w (encode w) (fun x hx => hws x (by simp [hx]))
          (fun _ => hwsolid) c h
    · refine ih (cur ++ ' ' :: w) (curLen + encode w)
        (fun x hx => hws x (by simp [hx])) ?_ c hc
      intro _
      exact hasSolid_append_right cur (' ' :: w) (hasSolid_cons _ _ hwsolid)

/-- Main-loop chunks are nonempty and stripped. -/
theorem sasGo_trimmed (encode : Str → Nat) (m : Nat) (ss : List Str) :
    ∀ cur : Str,
      (∀ s ∈ ss, hasSolid s = true) →
      (cur ≠ [] → hasSolid cur = true) →
      ∀ c ∈ SplitSections.sasGo encode m ss cur, c ≠ [] ∧ pyStrip c = c := by
  induction ss with
  | nil =>
    intro cur _ hcur c hc
    rw [SplitSections.sasGo] at hc
    by_cases h : cur = []
    · subst h
      simp at hc
    · rw [if_pos h] at hc
      simp only [List.mem_singleton] at hc
      subst hc
      exact ⟨pyStrip_ne_nil_of_solid cur (hcur h), pyStrip_idem cur⟩
  | cons s ss ih =>
    intro cur hss hcur c hc
    have hssolid : hasSolid s = true := hss s (by simp)
    rw [SplitSections.sasGo] at hc
    by_cases hb : encode s > m
    · rw [if_pos hb] at hc
      rcases List.mem_append.mp hc with h | h
      · rcases List.mem_append.mp h with h2 | h2
        · by_cases hcn : cur = []
          · subst hcn
            simp at h2
          · rw [if_pos hcn] at h2
            simp only [List.mem_singleton] at h2
            subst h2
            exact ⟨pyStrip_ne_nil_of_solid cur (hcur hcn), pyStrip_idem cur⟩
        · exact slsGo_trimmed encode _ (pyWords s) [] 0
            (pyWords_solid s) (by intro h; exact absurd rfl h) c h2
      · exact ih [] (fun x hx => hss x (by simp [hx]))
          (by intro h; exact absurd rfl h) c h
    · rw [if_neg hb] at hc
      by_cases ht : encode (pyStrip (cur ++ ' ' :: s)) > m
      · rw [if_pos ht] at hc
        rcases List.mem_append.mp hc with h | h
        · by_cases hcn : cur = []
          · subst hcn
            simp at h
          · rw [if_pos hcn] at h
            simp only [List.mem_singleton] at h
            subst h
            exact ⟨pyStrip_ne_nil_of_solid cur (hcur hcn), pyStrip_idem cur⟩
        · exact ih s (fun x hx => hss x (by simp [hx])) (fun _ => hssolid) c h
      · rw [if_neg ht] at hc
        refine ih (pyStrip (cur ++ ' ' :: s)) (fun x hx => hss x (by simp [hx]))
          ?_ c hc
        intro _
        exact hasSolid_pyStrip _
          (hasSolid_append_right cur (' ' :: s) (hasSolid_cons _ _ hssolid))

/-- Every kept sentence piece is solid. -/
theorem split_into_sentences_solid (t : Str) :
    ∀ s ∈ SplitSections.split_into_sentences t, hasSolid s = true := by
  intro s hs
  unfold SplitSections.split_into_sentences at hs
  have hmem := List.mem_filter.mp hs
  refine sentSplitGo_solid [] (pyStrip t)
    (by intro h; exact absurd rfl h)
    (fun _ => pyStrip_head t) s hmem.1 ?_
  have := hmem.2
  simpa using this

/-!
## Chunker: token budget
-/

/-- Budget invariant of the word-level fallback: with a subadditive
tokenizer and in-budget words, every sub-chunk stays within
`max_tokens`. -/
theorem slsGo_budget (encode : Str → Nat) (m : Nat) (h2 : 2 ≤ m)
    (hsub : ∀ a b : Str, encode (a ++ ' ' :: b) ≤ encode a + encode b)
    (htrim : ∀ x : Str, encode (pyStrip x) ≤ encode x)
    (ws : List Str) :
    ∀ (cur : Str) (curLen : Nat),
      (∀ w ∈ ws, encode w ≤ m - 2) →
      encode cur ≤ curLen → curLen ≤ m - 2 →
      ∀ c ∈ SplitSections.slsGo encode ((m : Int) - 2) ws cur curLen,
        encode c ≤ m := by
  induction ws with
  | nil =>
    intro cur curLen _ hcur hlen c hc
    rw [SplitSections.slsGo] at hc
    split at hc
    · simp only [List.mem_singleton] at hc
      subst hc
      have := htrim cur
      omega
    · simp at hc
  | cons w ws ih =>
    intro cur curLen hws hcur hlen c hc
    have hw := hws w (by simp)
    rw [SplitSections.slsGo] at hc
    split at hc
    · rcases List.mem_append.mp hc with h | h
      · split at h
        · simp only [List.mem_singleton] at h
          subst h
          have := htrim cur
          omega
        · simp at h
      · exact ih w (encode w) (fun x hx => hws x (by simp [hx]))
          (Nat.le_refl _) hw c h
    · rename_i hnot
      have hfit : curLen + encode w ≤ m - 2 := by
        push_neg at hnot
        have : (curLen : Int) + (encode w : Int) ≤ (m : Int) - 2 := hnot
        omega
      refine ih (cur ++ ' ' :: w) (curLen + encode w)
        (fun x hx => hws x (by simp [hx])) ?_ hfit c hc
      calc encode (cur ++ ' ' :: w) ≤ encode cur + encode w := hsub cur w
        _ ≤ curLen + encode w := by omega

/-- Budget invariant of the main sentence loop. -/
theorem sasGo_budget (encode : Str → Nat) (m : Nat) (h2 : 2 ≤ m)
    (hsub : ∀ a b : Str, encode (a ++ ' ' :: b) ≤ encode a + encode b)
    (htrim : ∀ x : Str, encode (pyStrip x) ≤ encode x)
    (hempty : encode [] = 0) (ss : List Str) :
    ∀ cur : Str,
      (∀ s ∈ ss, ∀ w ∈ pyWords s, encode w ≤ m - 2) →
      (cur ≠ [] → encode cur ≤ m) →
      ∀ c ∈ SplitSections.sasGo encode m ss cur, encode c ≤ m := by
  induction ss with
  | nil =>
    intro cur _ hcur c hc
    rw [SplitSections.sasGo] at hc
    by_cases h : cur = []
    · subst h
      simp at hc
    · rw [if_pos h] at hc
      simp only [List.mem_singleton] at hc
      subst hc
      have := htrim cur
      have := hcur h
      omega
  | cons s ss ih =>
    intro cur hss hcur c hc
    rw [SplitSections.sasGo] at hc
    by_cases hb : encode s > m
    · rw [if_pos hb] at hc
      rcases List.mem_append.mp hc with h | h
      · rcases List.mem_append.mp h with h2' | h2'
        · by_cases hcn : cur = []
          · subst hcn
            simp at h2'
          · rw [if_pos hcn] at h2'
            simp only [List.mem_singleton] at h2'
            subst h2'
            have := htrim cur
            have := hcur hcn
            omega
        · refine slsGo_budget encode m h2 hsub htrim (pyWords s) [] 0
            (fun w hw => hss s (by simp) w hw) (by omega) (by omega) c h2'
      · exact ih [] (fun x hx => hss x (by simp [hx]))
          (by intro hcon; exact absurd rfl hcon) c h
    · rw [if_neg hb] at hc
      by_cases ht : encode (pyStrip (cur ++ ' ' :: s)) > m
      · rw [if_pos ht] at hc
        rcases List.mem_append.mp hc with h | h
        · by_cases hcn : cur = []
          · subst hcn
            simp at h
          · rw [if_pos hcn] at h
            simp only [List.mem_singleton] at h
            subst h
            have := htrim cur
            have := hcur hcn
            omega
        · exact ih s (fun x hx => hss x (by simp [hx])) (fun _ => by omega) c h
      · rw [if_neg ht] at hc
        refine ih (pyStrip (cur ++ ' ' :: s)) (fun x hx => hss x (by simp [hx]))
          (fun _ => by omega) c hc

/-!
## Claims C2, C4, C5, C10
-/

/-- Claim C4 (confirmed): for every tokenizer, budget and section content,
the whitespace-normalized concatenation of the chunks emitted by the
non-overlapping sentence-aware chunker equals the whitespace-normalized
content: no text is dropped and none is duplicated. -/
theorem C4_no_content_loss (encode : Str → Nat) (m : Nat) (content : Str) :
    pyWords (sepJoin (SplitSections.sentence_aware_split encode m content)) =
      pyWords content := by
  rw [pyWords_sepJoin]
  exact sentence_aware_split_words encode m content

/-- Claim C10 (confirmed): every chunk emitted by the sentence-aware
chunker, including word-level fallback sub-chunks, is nonempty and
carries no leading or trailing whitespace. -/
theorem C10_chunks_trimmed (encode : Str → Nat) (m : Nat) (content : Str) :
    ∀ c ∈ SplitSections.sentence_aware_split encode m content,
      c ≠ [] ∧ pyStrip c = c := by
  intro c hc
  exact sasGo_trimmed encode m _ [] (split_into_sentences_solid content)
    (by intro h; exact absurd rfl h) c hc

/-- Witness for C10 at a concrete tokenizer, budget and content. -/
theorem C10_chunks_trimmed_witness :
    ("aa".data ∈ SplitSections.sentence_aware_split charCountTok 5 "aa bb.".data) ∧
    ("aa".data ≠ [] ∧ pyStrip "aa".data = "aa".data) :=
  ⟨by simp [SplitSections.sentence_aware_split, SplitSections.sasGo,
    SplitSections.split_into_sentences, SplitSections.sentSplitGo,
    SplitSections.split_long_sentence, SplitSections.slsGo, SplitSections.sasPre,
    SplitSections.sentPunct, pyWs, pyStrip, pyWords, charCountTok, wordCountTok],
   C10_chunks_trimmed charCountTok 5 "aa bb.".data "aa".data
     (by simp [SplitSections.sentence_aware_split, SplitSections.sasGo,
    SplitSections.split_into_sentences, SplitSections.sentSplitGo,
    SplitSections.split_long_sentence, SplitSections.slsGo, SplitSections.sasPre,
    SplitSections.sentPunct, pyWs, pyStrip, pyWords, charCountTok, wordCountTok])⟩

/-- Claim C2, counterexample: with the tokenizer measuring one token per
character and budget 5, the single-word content `"abcdefghij"` (10
tokens) triggers the word-level fallback, which emits the word unsplit as
a chunk of 10 > 5 tokens: the chunk budget claim fails as stated. -/
theorem C2_chunk_budget_counterexample :
    SplitSections.sentence_aware_split charCountTok 5 "abcdefghij".data =
      ["abcdefghij".data] ∧
    charCountTok "abcdefghij".data > 5 := by
  constructor
  · simp [SplitSections.sentence_aware_split, SplitSections.sasGo,
    SplitSections.split_into_sentences, SplitSections.sentSplitGo,
    SplitSections.split_long_sentence, SplitSections.slsGo, SplitSections.sasPre,
    SplitSections.sentPunct, pyWs, pyStrip, pyWords, charCountTok, wordCountTok]
  · decide

/-- Claim C2, amended: every chunk emitted by the sentence-aware chunker
has token length at most `max_tokens`, provided `max_tokens ≥ 2`, the
tokenizer length is subadditive across space-joining, non-increasing
under stripping, zero on the empty string, and every whitespace-word of
the content is within `max_tokens - 2` tokens. -/
theorem C2_chunk_budget_amended (encode : Str → Nat) (m : Nat) (content : Str)
    (h2 : 2 ≤ m)
    (hsub : ∀ a b : Str, encode (a ++ ' ' :: b) ≤ encode a + encode b)
    (htrim : ∀ x : Str, encode (pyStrip x) ≤ encode x)
    (hempty : encode [] = 0)
    (hwords : ∀ w ∈ pyWords content, encode w ≤ m - 2) :
    ∀ c ∈ SplitSections.sentence_aware_split encode m content,
      encode c ≤ m := by
  intro c hc
  refine sasGo_budget encode m h2 hsub htrim hempty _ [] ?_
    (by intro h; exact absurd rfl h) c hc
  intro s hs w hw
  apply hwords
  rw [← split_into_sentences_words content]
  exact List.mem_flatten.mpr ⟨pyWords s, List.mem_map.mpr ⟨s, hs, rfl⟩, hw⟩

/-- Witness for the amended C2 at a concrete tokenizer, budget and
content. -/
theorem C2_chunk_budget_witness :
    (2 ≤ 5 ∧ (∀ w ∈ pyWords "aa bb. cc dd.".data, wordCountTok w ≤ 5 - 2)) ∧
    (∀ c ∈ SplitSections.sentence_aware_split wordCountTok 5 "aa bb. cc dd.".data,
      wordCountTok c ≤ 5) :=
  ⟨⟨by decide, by simp [pyWords, pyWs, wordCountTok]⟩,
   C2_chunk_budget_amended wordCountTok 5 "aa bb. cc dd.".data (by decide)
     (fun a b => by
       unfold wordCountTok
       rw [pyWords_append_ws ' ' (by decide) a b]
       simp)
     (fun x => by
       unfold wordCountTok
       rw [pyWords_pyStrip])
     (by simp [pyWords, wordCountTok])
     (by simp [pyWords, pyWs, wordCountTok])⟩

/-- Processing a prefix of the sentence list emits its chunks first and
hands the pending current chunk to the rest. -/
theorem sasGo_append (encode : Str → Nat) (m : Nat) (l1 l2 : List Str) :
    ∀ cur : Str,
      SplitSections.sasGo encode m (l1 ++ l2) cur =
        (SplitSections.sasPre encode m l1 cur).1 ++
          SplitSections.sasGo encode m l2
            (SplitSections.sasPre encode m l1 cur).2 := by
  induction l1 with
  | nil =>
    intro cur
    simp [SplitSections.sasPre]
  | cons s l1 ih =>
    intro cur
    rw [List.cons_append, SplitSections.sasGo, SplitSections.sasPre]
    by_cases hb : encode s > m
    · rw [if_pos hb, if_pos hb, ih []]
      simp [List.append_assoc]
    · rw [if_neg hb, if_neg hb]
      by_cases ht : encode (pyStrip (cur ++ ' ' :: s)) > m
      · rw [if_pos ht, if_pos ht, ih s]
        simp [List.append_assoc]
      · rw [if_neg ht, if_neg ht, ih (pyStrip (cur ++ ' ' :: s))]

/-- Claim C5 (confirmed): when a sentence's own token length exceeds the
budget, the chunker emits the chunks of the preceding sentences, then the
flushed pending chunk (if any), then the word-level sub-chunks of the
oversized sentence in order, and only then the chunks of the later
sentences. -/
theorem C5_oversized_fallback (encode : Str → Nat) (m : Nat) (content : Str)
    (pre post : List Str) (s : Str)
    (hss : SplitSections.split_into_sentences content = pre ++ s :: post)
    (hbig : encode s > m) :
    SplitSections.sentence_aware_split encode m content =
      (SplitSections.sasPre encode m pre []).1 ++
      ((if (SplitSections.sasPre encode m pre []).2 ≠ []
        then [pyStrip (SplitSections.sasPre encode m pre []).2] else []) ++
       (SplitSections.split_long_sentence encode m s ++
        SplitSections.sasGo encode m post [])) := by
  unfold SplitSections.sentence_aware_split
  rw [hss, sasGo_append]
  rw [SplitSections.sasGo, if_pos hbig, List.append_assoc]

/-- Witness for C5 at a concrete tokenizer, budget and content. -/
theorem C5_oversized_fallback_witness :
    (SplitSections.split_into_sentences "ab. abcdefghij. cd.".data =
       ["ab.".data] ++ "abcdefghij.".data :: ["cd.".data] ∧
     charCountTok "abcdefghij.".data > 5) ∧
    SplitSections.sentence_aware_split charCountTok 5 "ab. abcdefghij. cd.".data =
      (SplitSections.sasPre charCountTok 5 ["ab.".data] []).1 ++
      ((if (SplitSections.sasPre charCountTok 5 ["ab.".data] []).2 ≠ []
        then [pyStrip (SplitSections.sasPre charCountTok 5 ["ab.".data] []).2]
        else []) ++
       (SplitSections.split_long_sentence charCountTok 5 "abcdefghij.".data ++
        SplitSections.sasGo charCountTok 5 ["cd.".data] [])) :=
  ⟨⟨by simp [SplitSections.sentence_aware_split, SplitSections.sasGo,
    SplitSections.split_into_sentences, SplitSections.sentSplitGo,
    SplitSections.split_long_sentence, SplitSections.slsGo, SplitSections.sasPre,
    SplitSections.sentPunct, pyWs, pyStrip, pyWords, charCountTok, wordCountTok], by decide⟩,
   C5_oversized_fallback charCountTok 5 "ab. abcdefghij. cd.".data
     ["ab.".data] ["cd.".data] "abcdefghij.".data (by simp [SplitSections.sentence_aware_split, SplitSections.sasGo,
    SplitSections.split_into_sentences, SplitSections.sentSplitGo,
    SplitSections.split_long_sentence, SplitSections.slsGo, SplitSections.sasPre,
    SplitSections.sentPunct, pyWs, pyStrip, pyWords, charCountTok, wordCountTok])
     (by decide)⟩

/-!
## Claim C9: tokenizer failure propagates
-/

/-- Binding a failed `Except` propagates the error. -/
theorem except_bind_error {ε α β : Type} (e : ε) (f : α → Except ε β) :
    (Except.error e >>= f : Except ε β) = Except.error e := rfl

/-- Claim C9, counterexample: a tokenizer that raises on every substring
makes the whole chunker fail — the failure is not contained to one
chunk-boundary decision, it aborts the computation. -/
theorem C9_tokenizer_failure_counterexample :
    SplitSections.sentence_aware_splitE failTok 510 "Aa. Bb.".data =
      .error () := by
  simp [SplitSections.sentence_aware_splitE, SplitSections.sasGoE,
    SplitSections.split_into_sentences, SplitSections.sentSplitGo,
    SplitSections.sentPunct, pyWs, pyStrip, failTok, except_bind_error]

/-- Claim C9, amended: a tokenizer failure propagates out of
`sentence_aware_split` (the code installs no handler): whenever the
tokenizer fails on every input and the content has at least one sentence,
the whole chunking computation returns that error and emits no chunks. -/
theorem C9_tokenizer_failure_amended {ε : Type} (e : ε)
    (encodeE : Str → Except ε Nat) (m : Nat) (content : Str)
    (hfail : ∀ s : Str, encodeE s = .error e)
    (hne : SplitSections.split_into_sentences content ≠ []) :
    SplitSections.sentence_aware_splitE encodeE m content = .error e := by
  unfold SplitSections.sentence_aware_splitE
  cases hss : SplitSections.split_into_sentences content with
  | nil => exact absurd hss hne
  | cons s ss =>
    rw [SplitSections.sasGoE]
    rw [hfail s]
    exact except_bind_error e _

/-- Witness for the amended C9 at a concrete tokenizer and content. -/
theorem C9_tokenizer_failure_witness :
    ((∀ s : Str, failTok s = .error ()) ∧
      SplitSections.split_into_sentences "Aa. Bb.".data ≠ []) ∧
    SplitSections.sentence_aware_splitE failTok 510 "Aa. Bb.".data =
      .error () :=
  ⟨⟨fun _ => rfl,
    by simp [SplitSections.split_into_sentences, SplitSections.sentSplitGo,
      SplitSections.sentPunct, pyWs, pyStrip]⟩,
   C9_tokenizer_failure_amended () failTok 510 "Aa. Bb.".data (fun _ => rfl)
     (by simp [SplitSections.split_into_sentences, SplitSections.sentSplitGo,
       SplitSections.sentPunct, pyWs, pyStrip])⟩

/-!
## Claim C8: out-of-range section numbers are discarded
-/

/-- The per-match decision of `split_sections_by_number`'s record loop: a
purely-numeric number above 358 yields no record, an empty stripped
content yields no record, anything else yields its own record. -/
def keepRec (statute : Str) (m : Str × Str) : Option SectionRec :=
  let num := ExtractSection.stripDots m.1
  if num.all Char.isDigit && ExtractSections.natOfDigits num > 358 then none
  else if pyStrip m.2 = [] then none
  else some ⟨num, pyStrip m.2, statute⟩

/-- The record loop is a `filterMap`: each emitted record comes from its
own match. -/
theorem buildSections_filterMap (statute : Str) (ms : List (Str × Str)) :
    ∀ acc : List SectionRec,
      ms.foldl
        (fun acc m =>
          let num := ExtractSection.stripDots m.1
          if num.all Char.isDigit && ExtractSections.natOfDigits num > 358 then
            acc
          else
            let content := pyStrip m.2
            if content = [] then acc
            else acc ++ [⟨num, content, statute⟩]) acc =
      acc ++ ms.filterMap (keepRec statute) := by
  induction ms with
  | nil => intro acc; simp
  | cons m ms ih =>
    intro acc
    rw [List.foldl_cons, List.filterMap_cons]
    dsimp only [] at ih ⊢
    by_cases h1 : ((ExtractSection.stripDots m.1).all Char.isDigit &&
        decide (ExtractSections.natOfDigits (ExtractSection.stripDots m.1) > 358)) = true
    · rw [if_pos h1]
      have hk : keepRec statute m = none := by
        unfold keepRec
        dsimp only []
        rw [if_pos h1]
      rw [hk]
      exact ih acc
    · rw [if_neg h1]
      by_cases h2 : pyStrip m.2 = []
      · rw [if_pos h2]
        have hk : keepRec statute m = none := by
          unfold keepRec
          dsimp only []
          rw [if_neg h1, if_pos h2]
        rw [hk]
        exact ih acc
      · rw [if_neg h2]
        have hk : keepRec statute m =
            some ⟨ExtractSection.stripDots m.1, pyStrip m.2, statute⟩ := by
          unfold keepRec
          dsimp only []
          rw [if_neg h1, if_neg h2]
        rw [hk, ih]
        simp

/-- Claim C8 (confirmed): the statute splitter drops every detected
purely-numeric marker above 358 without emitting a record for it and
without merging its content anywhere (each emitted record is the
`filterMap` image of its own match), and every emitted purely-numeric
section number is at most 358; the function is total, so no error is
raised. -/
theorem C8_out_of_range_discarded (text statute : Str) :
    ExtractSection.split_sections_by_number text statute =
      (ExtractSection.findAllStat true
        (ExtractSection.inlineFixGo none text)).filterMap (keepRec statute) ∧
    ∀ r ∈ ExtractSection.split_sections_by_number text statute,
      r.section_number.all Char.isDigit = true →
        ExtractSections.natOfDigits r.section_number ≤ 358 := by
  have heq : ExtractSection.split_sections_by_number text statute =
      (ExtractSection.findAllStat true
        (ExtractSection.inlineFixGo none text)).filterMap (keepRec statute) := by
    unfold ExtractSection.split_sections_by_number ExtractSection.buildSections
    exact buildSections_filterMap statute _ []
  refine ⟨heq, ?_⟩
  intro r hr hdig
  rw [heq] at hr
  obtain ⟨m, _, hm⟩ := List.mem_filterMap.mp hr
  unfold keepRec at hm
  dsimp only [] at hm
  by_cases h1 : ((ExtractSection.stripDots m.1).all Char.isDigit &&
      decide (ExtractSections.natOfDigits (ExtractSection.stripDots m.1) > 358)) = true
  · rw [if_pos h1] at hm
    simp at hm
  · rw [if_neg h1] at hm
    by_cases h2 : pyStrip m.2 = []
    · rw [if_pos h2] at hm
      simp at hm
    · rw [if_neg h2] at hm
      simp only [Option.some.injEq] at hm
      subst hm
      by_contra hgt
      push_neg at hgt
      apply h1
      simp only [Bool.and_eq_true, decide_eq_true_eq]
      dsimp only [] at hdig hgt
      exact ⟨hdig, by omega⟩

/-- Concrete run of the statute splitter: the marker `359.` (above the
358 bound) produces no record and its content `gone` is discarded. -/
theorem c8_eval :
    ExtractSection.split_sections_by_number "1. one 359. gone 2. two".data
        "S".data =
      [⟨"1".data, "one".data, "S".data⟩, ⟨"2".data, "two".data, "S".data⟩] := by
  simp [ExtractSection.split_sections_by_number, ExtractSection.buildSections,
    ExtractSection.findAllStat, ExtractSection.inlineFixGo,
    ExtractSection.tryInline, ExtractSection.tryMatchStat,
    ExtractSection.parseSecNum, ExtractSection.afterNum, ExtractSection.statRest,
    ExtractSection.inlineRest, ExtractSection.scanContentStat,
    ExtractSection.secLookahead, ExtractSection.stripDots, ExtractSection.isUpperAZ,
    ExtractSections.natOfDigits, pyWs, pyStrip]

/-- Witness for C8 at a concrete text containing an out-of-range
marker. -/
theorem C8_out_of_range_witness :
    (("2".data : Str) ∈ (ExtractSection.split_sections_by_number
        "1. one 359. gone 2. two".data "S".data).map SectionRec.section_number ∧
      ("359".data : Str) ∉ (ExtractSection.split_sections_by_number
        "1. one 359. gone 2. two".data "S".data).map SectionRec.section_number) ∧
    ∀ r ∈ ExtractSection.split_sections_by_number
        "1. one 359. gone 2. two".data "S".data,
      r.section_number.all Char.isDigit = true →
        ExtractSections.natOfDigits r.section_number ≤ 358 :=
  ⟨by
    rw [c8_eval]
    constructor
    · simp
    · simp,
   (C8_out_of_range_discarded "1. one 359. gone 2. two".data "S".data).2⟩

/-!
## Claim C1: the merge rule of the segmenter
-/

/-- Continuation fragments after an accepted marker numbered `p`: the
maximal run of following markers whose number is not exactly `p + 1`;
returns their contents and the remaining markers. -/
def contFragments (p : Nat) : List (Nat × Str) → List Str × List (Nat × Str)
  | [] => ([], [])
  | (n, c) :: ms =>
    if n = p + 1 then ([], (n, c) :: ms)
    else
      let q := contFragments p ms
      (c :: q.1, q.2)

/-- `contFragments` returns a suffix of its input. -/
theorem contFragments_rest_le (p : Nat) (ms : List (Nat × Str)) :
    (contFragments p ms).2.length ≤ ms.length := by
  induction ms with
  | nil => simp [contFragments]
  | cons m ms ih =>
    rw [contFragments]
    split
    · simp
    · simp only [List.length_cons]
      omega

/-- Join contents with a blank-line separator. -/
def glueNN : List Str → Str
  | [] => []
  | [x] => x
  | x :: y :: xs => x ++ '\n' :: '\n' :: glueNN (y :: xs)

/-- Declarative form of the merge rule, following the amended claim: the
first marker always starts a section; afterwards a marker numbered
exactly `previous + 1` starts a new section and becomes the new
`previous`, while every other marker (smaller, equal, or larger but not
consecutive) has its content glued onto the pending section after a
blank line, with `previous` unchanged. -/
def specMerge (statute : Str) : List (Nat × Str) → List SectionRec
  | [] => []
  | (n, c) :: ms =>
    let q := contFragments n ms
    ⟨(Nat.repr n).data, glueNN (c :: q.1), statute⟩ :: specMerge statute q.2
termination_by ms => ms.length
decreasing_by
  have := contFragments_rest_le n ms
  simp only [List.length_cons]
  omega

/-- Gluing unfolds to appending blank-line-prefixed fragments. -/
theorem glueNN_cons (c : Str) (fr : List Str) :
    glueNN (c :: fr) =
      c ++ (fr.map (fun f => '\n' :: '\n' :: f)).flatten := by
  induction fr generalizing c with
  | nil => simp [glueNN]
  | cons f fs ih =>
    rw [glueNN, ih f]
    simp

/-- `updateLast` of a pointwise-equal function. -/
theorem updateLast_congr {α : Type} (f g : α → α) (l : List α)
    (h : ∀ x, f x = g x) : updateLast f l = updateLast g l := by
  induction l with
  | nil => rfl
  | cons x xs ih =>
    cases xs with
    | nil => simp [updateLast, h x]
    | cons y ys => simp [updateLast, ih]

/-- `updateLast` composes. -/
theorem updateLast_comp {α : Type} (f g : α → α) (l : List α) :
    updateLast f (updateLast g l) = updateLast (fun x => f (g x)) l := by
  induction l with
  | nil => rfl
  | cons x xs ih =>
    cases xs with
    | nil => simp [updateLast]
    | cons y ys =>
      simp only [updateLast]
      rw [show updateLast g (y :: ys) = updateLast g (y :: ys) from rfl] at ih
      cases hyy : updateLast g (y :: ys) with
      | nil =>
        exfalso
        have : (updateLast g (y :: ys)).length = (y :: ys).length := by
          clear ih hyy
          induction (y :: ys) with
          | nil => rfl
          | cons a as ih2 =>
            cases as with
            | nil => simp [updateLast]
            | cons b bs => simp only [updateLast, List.length_cons] at *; omega
        rw [hyy] at this
        simp at this
      | cons z zs =>
        simp only [updateLast]
        rw [← hyy, ih]

/-- `updateLast` of the identity. -/
theorem updateLast_id {α : Type} (f : α → α) (l : List α)
    (h : ∀ x, f x = x) : updateLast f l = l := by
  induction l with
  | nil => rfl
  | cons x xs ih =>
    cases xs with
    | nil => simp [updateLast, h x]
    | cons y ys => simp only [updateLast]; rw [ih]

/-- `updateLast` on a list ending in a singleton. -/
theorem updateLast_append_singleton {α : Type} (f : α → α) (l : List α)
    (x : α) : updateLast f (l ++ [x]) = l ++ [f x] := by
  induction l with
  | nil => simp [updateLast]
  | cons a as ih =>
    cases as with
    | nil => simp [updateLast]
    | cons b bs =>
      calc updateLast f ((a :: b :: bs) ++ [x])
          = a :: updateLast f ((b :: bs) ++ [x]) := rfl
        _ = a :: ((b :: bs) ++ [f x]) := by rw [ih]
        _ = (a :: b :: bs) ++ [f x] := rfl

/-- The merge fold of `extract_and_clean_sections`, started after a first
accepted marker, equals the declarative grouping: continuation fragments
are glued onto the last emitted record and the rest is `specMerge`. -/
theorem mergeFold_eq (statute : Str) (ms : List (Nat × Str)) :
    ∀ (p : Nat) (acc : List SectionRec),
    (ms.foldl (ExtractSections.mergeStep statute) (some p, acc)).2 =
      updateLast (fun s =>
        ⟨s.section_number,
         s.content ++ (((contFragments p ms).1).map
           (fun f => '\n' :: '\n' :: f)).flatten, s.statute⟩) acc ++
      specMerge statute (contFragments p ms).2 := by
  induction ms with
  | nil =>
    intro p acc
    rw [show contFragments p [] = ([], []) from rfl]
    simp only [List.foldl_nil, List.map_nil, List.flatten_nil]
    rw [specMerge]
    rw [updateLast_id _ acc (fun s => by cases s; simp)]
    simp
  | cons m ms ih =>
    intro p acc
    obtain ⟨n, c⟩ := m
    rw [List.foldl_cons]
    by_cases hn : n = p + 1
    · have hint : (n : Int) - (p : Int) = 1 := by omega
      rw [show ExtractSections.mergeStep statute (some p, acc) (n, c) =
        (some n, acc ++ [⟨(Nat.repr n).data, c, statute⟩]) from by
          simp [ExtractSections.mergeStep, hint]]
      have step := ih n
        (acc ++ [(⟨(Nat.repr n).data, c, statute⟩ : SectionRec)])
      rw [step]
      rw [show contFragments p ((n, c) :: ms) = ([], (n, c) :: ms) from by
        rw [contFragments, if_pos hn]]
      rw [specMerge]
      rw [updateLast_append_singleton]
      rw [updateLast_id _ acc (fun s => by cases s; simp)]
      rw [glueNN_cons]
      simp
    · have hint : ¬ ((n : Int) - (p : Int) = 1) := by omega
      rw [show ExtractSections.mergeStep statute (some p, acc) (n, c) =
        (some p, updateLast (fun s =>
          ⟨s.section_number, s.content ++ '\n' :: '\n' :: c,
           s.statute⟩) acc) from by
          simp [ExtractSections.mergeStep, hint]]
      rw [ih p (updateLast (fun s =>
        ⟨s.section_number, s.content ++ '\n' :: '\n' :: c,
         s.statute⟩) acc)]
      rw [show contFragments p ((n, c) :: ms) =
            (c :: (contFragments p ms).1, (contFragments p ms).2) from by
        rw [contFragments, if_neg hn]]
      rw [updateLast_comp]
      have hfun : ∀ s : SectionRec,
          (⟨s.section_number,
            (s.content ++ '\n' :: '\n' :: c) ++
              (List.map (fun f => '\n' :: '\n' :: f)
                (contFragments p ms).1).flatten,
            s.statute⟩ : SectionRec) =
          ⟨s.section_number,
            s.content ++ (List.map (fun f => '\n' :: '\n' :: f)
              (c :: (contFragments p ms).1)).flatten,
            s.statute⟩ := by
        intro s
        simp [List.append_assoc]
      exact congrArg
        (fun l => l ++ specMerge statute (contFragments p ms).2)
        (updateLast_congr _ _ acc hfun)

/-- Evaluation of the segmenter on a text whose second marker jumps from
1 to 3. -/
theorem c1_eval :
    ExtractSections.extract_and_clean_sections "1. Alpha.\n3. Beta.".data
        "S".data =
      [⟨"1".data, "Alpha.\n\nBeta.".data, "S".data⟩] := by
  simp [ExtractSections.extract_and_clean_sections, ExtractSections.findSections,
    ExtractSections.secRest, ExtractSections.tryMatch, ExtractSections.scanContent,
    ExtractSections.sectionLookahead, ExtractSections.clean_content,
    ExtractSections.removeArtifacts, ExtractSections.isArtifact,
    ExtractSections.removeBlocks, ExtractSections.hasNN, ExtractSections.nlRun,
    ExtractSections.skipToNN, ExtractSections.collapseSpTab,
    ExtractSections.delSpBeforeNl, ExtractSections.singleNl,
    ExtractSections.collapseNl3, ExtractSections.parenDigitFix,
    ExtractSections.isLowerAZ, ExtractSections.parenLetterFix,
    ExtractSections.natOfDigits, ExtractSections.mergeStep, updateLast,
    pyWs, pyStrip]
  decide

/-- Evaluation of the marker scanner on the same text: it finds markers
numbered 1 and then 3. -/
theorem c1_markers :
    (ExtractSections.findSections true "1. Alpha.\n3. Beta.".data).map
        (fun m => ExtractSections.natOfDigits m.1) = [1, 3] := by
  simp [ExtractSections.findSections, ExtractSections.secRest,
    ExtractSections.tryMatch, ExtractSections.scanContent,
    ExtractSections.sectionLookahead, ExtractSections.natOfDigits, pyWs]

/-- C1: refuted as stated. On the text "1. Alpha.\n3. Beta." the scanner
detects markers numbered 1 and then 3; although 3 is strictly greater
than the previous section number 1, the code does not start a new
Section for it (the test in `Extract_sections.py` is
`section_number - previous_section_number == 1`, not a comparison):
exactly one Section is emitted, with the second marker's content merged
into it, and the separator used is a blank line, not a space. -/
theorem C1_merge_rule_counterexample :
    (ExtractSections.findSections true "1. Alpha.\n3. Beta.".data).map
        (fun m => ExtractSections.natOfDigits m.1) = [1, 3] ∧ (1 : Nat) < 3 ∧
      ExtractSections.extract_and_clean_sections "1. Alpha.\n3. Beta.".data
          "S".data =
        [⟨"1".data, "Alpha.\n\nBeta.".data, "S".data⟩] := by
  refine ⟨c1_markers, by omega, c1_eval⟩

/-- C1 (amended): the merge rule of the segmenter, characterized in
full. The first detected marker always starts a Section. After a
Section for marker number `p`, a following marker starts a new Section
exactly when its number is `p + 1` (then it becomes the new previous
number); every other marker — smaller, equal, or larger by more than
one — has its cleaned content appended to the immediately preceding
emitted Section after a blank-line (`"\n\n"`) separator, and does not
advance the previous section number. `specMerge` states this rule
declaratively and the theorem proves the code implements it. -/
theorem C1_merge_rule_amended (full_text statute_name : Str) :
    ExtractSections.extract_and_clean_sections full_text statute_name =
      specMerge statute_name
        ((ExtractSections.findSections true full_text).map
          (fun m => (ExtractSections.natOfDigits m.1,
            ExtractSections.clean_content (pyStrip m.2)))) := by
  rw [ExtractSections.extract_and_clean_sections]
  cases hms : (ExtractSections.findSections true full_text).map
      (fun m => (ExtractSections.natOfDigits m.1,
        ExtractSections.clean_content (pyStrip m.2))) with
  | nil => rw [specMerge]; rfl
  | cons m ms =>
    obtain ⟨n, c⟩ := m
    rw [List.foldl_cons]
    rw [show ExtractSections.mergeStep statute_name (none, []) (n, c) =
      (some n, [(⟨(Nat.repr n).data, c, statute_name⟩ : SectionRec)]) from rfl]
    rw [mergeFold_eq]
    rw [specMerge]
    rw [glueNN_cons]
    simp [updateLast]

/-- C3: refuted as stated. On the exact one-line input of the claim the
segmenter emits one Section, not three: the marker pattern requires each
section number to start a line (`^\s*` under MULTILINE), so "2." and
"3." inside a single line are never detected as markers and the whole
text becomes the content of section "1". -/
theorem C3_test_vector_counterexample :
    ExtractSections.extract_and_clean_sections
        "1. Alpha text. 2. Beta text. 1(a) clarifying note. 3. Gamma text.".data
        "S".data =
      [⟨"1".data,
        "Alpha text. 2. Beta text. 1(a) clarifying note. 3. Gamma text.".data,
        "S".data⟩] := by
  simp [ExtractSections.extract_and_clean_sections, ExtractSections.findSections,
    ExtractSections.secRest, ExtractSections.tryMatch, ExtractSections.scanContent,
    ExtractSections.sectionLookahead, ExtractSections.clean_content,
    ExtractSections.removeArtifacts, ExtractSections.isArtifact,
    ExtractSections.removeBlocks, ExtractSections.hasNN, ExtractSections.nlRun,
    ExtractSections.skipToNN, ExtractSections.collapseSpTab,
    ExtractSections.delSpBeforeNl, ExtractSections.singleNl,
    ExtractSections.collapseNl3, ExtractSections.parenDigitFix,
    ExtractSections.isLowerAZ, ExtractSections.parenLetterFix,
    ExtractSections.natOfDigits, ExtractSections.mergeStep, updateLast,
    pyWs, pyStrip]
  decide

/-- C3 (amended): the test vector holds once the markers start lines.
On "1. Alpha text.\n2. Beta text. 1(a) clarifying note.\n3. Gamma text."
the segmenter emits exactly the Sections "1", "2" and "3", and the
fragment "1(a) clarifying note." ends up inside section "2"'s content —
not because of a merge (the in-line "1(a)" is never detected as a
marker, lacking a line start and a dot after the digits) but because the
scanner keeps it inside the preceding match's content. -/
theorem C3_test_vector_amended :
    ExtractSections.extract_and_clean_sections
        "1. Alpha text.\n2. Beta text. 1(a) clarifying note.\n3. Gamma text.".data
        "S".data =
      [⟨"1".data, "Alpha text.".data, "S".data⟩,
       ⟨"2".data, "Beta text. ".data ++ "1(a) clarifying note.".data, "S".data⟩,
       ⟨"3".data, "Gamma text.".data, "S".data⟩] := by
  simp [ExtractSections.extract_and_clean_sections, ExtractSections.findSections,
    ExtractSections.secRest, ExtractSections.tryMatch, ExtractSections.scanContent,
    ExtractSections.sectionLookahead, ExtractSections.clean_content,
    ExtractSections.removeArtifacts, ExtractSections.isArtifact,
    ExtractSections.removeBlocks, ExtractSections.hasNN, ExtractSections.nlRun,
    ExtractSections.skipToNN, ExtractSections.collapseSpTab,
    ExtractSections.delSpBeforeNl, ExtractSections.singleNl,
    ExtractSections.collapseNl3, ExtractSections.parenDigitFix,
    ExtractSections.isLowerAZ, ExtractSections.parenLetterFix,
    ExtractSections.natOfDigits, ExtractSections.mergeStep, updateLast,
    pyWs, pyStrip]
  decide

/-!
## Claim C7: documents with no detected chapter markers
-/

/-- With an empty chapter dictionary the label scan is the identity. -/
theorem advanceLabel_nil (pos : Int) (cur : Str) :
    InLegalBert.advanceLabel [] pos cur = cur := by
  simp [InLegalBert.advanceLabel, InLegalBert.sortedKeys]

/-- With an empty chapter dictionary every chunk of the paragraph loop
carries the incoming chapter label unchanged. -/
theorem ptGo_chapter_const (t src : Str) (sections : List (Nat × Str)) :
    ∀ (ps : List Str) (curCh curSec : Str),
      ∀ m ∈ (InLegalBert.ptGo t src [] sections ps curCh curSec).2,
        m.chapter = curCh := by
  intro ps
  induction ps with
  | nil => intro curCh curSec m hm; simp [InLegalBert.ptGo] at hm
  | cons para ps ih =>
    intro curCh curSec m hm
    rw [InLegalBert.ptGo] at hm
    rw [advanceLabel_nil] at hm
    by_cases hh : (InLegalBert.isHeader para &&
        decide ((pyWords para).length < InLegalBert.MIN_CHUNK_WORDS)) = true
    · rw [if_pos hh] at hm
      exact ih curCh _ m hm
    · rw [if_neg hh] at hm
      simp only [List.mem_append, List.mem_map] at hm
      rcases hm with ⟨c, _, hc⟩ | hm
      · rw [← hc]
      · exact ih curCh _ m hm

/-- C7: refuted as stated. On a 20-word document in which zero chapter
markers are detected (the chapter dictionary is empty), `process_text`
emits its chunk with the chapter label `"Unknown"` — the code
initializes `current_chapter = "Unknown"` and never uses an
"Entire Document" sentinel, and it does not emit any chapter object at
all, only per-chunk labels. -/
theorem C7_empty_chapter_counterexample :
    InLegalBert.chapterDict (InLegalBert.cleanText
        "a b c d e f g h i j k l m n o p q r s t".data) = [] ∧
    (InLegalBert.process_text "a b c d e f g h i j k l m n o p q r s t".data
        "doc".data).2.map InLegalBert.ChunkMeta.chapter =
      [InLegalBert.unknownLabel] ∧
    InLegalBert.unknownLabel ≠ "Entire Document".data := by
  refine ⟨?_, ?_, by decide⟩
  · simp [InLegalBert.chapterDict, InLegalBert.finditerGo,
      InLegalBert.anchoredIter, InLegalBert.tryChap1, InLegalBert.tryChap2,
      InLegalBert.tryChap3, InLegalBert.tryChap4, InLegalBert.litMatch,
      InLegalBert.wordBoundaryPre, InLegalBert.isWordChar, InLegalBert.isRoman,
      InLegalBert.romanGroup, InLegalBert.numLetterGroup,
      InLegalBert.litWsGroupGo, InLegalBert.litWsGroup, InLegalBert.upperOrWs,
      InLegalBert.p3Search, InLegalBert.p3Group, InLegalBert.upsert,
      InLegalBert.upsertAll, InLegalBert.cleanText, InLegalBert.wsCollapse,
      InLegalBert.nonAscii, InLegalBert.nonAsciiCollapse, pyWs, pyStrip]
  · simp [InLegalBert.process_text, InLegalBert.cleanText,
      InLegalBert.wsCollapse, InLegalBert.nonAscii, InLegalBert.nonAsciiCollapse,
      InLegalBert.chapterDict, InLegalBert.sectionDict, InLegalBert.finditerGo,
      InLegalBert.anchoredIter, InLegalBert.tryChap1, InLegalBert.tryChap2,
      InLegalBert.tryChap3, InLegalBert.tryChap4, InLegalBert.trySec1,
      InLegalBert.tryS2, InLegalBert.trySec3, InLegalBert.trySec4,
      InLegalBert.litMatch, InLegalBert.wordBoundaryPre, InLegalBert.isWordChar,
      InLegalBert.isRoman, InLegalBert.romanGroup, InLegalBert.numLetterGroup,
      InLegalBert.litWsGroupGo, InLegalBert.litWsGroup, InLegalBert.upperOrWs,
      InLegalBert.p3Search, InLegalBert.p3Group, InLegalBert.digitParens,
      InLegalBert.letterParens, InLegalBert.s1TryM, InLegalBert.s1SearchM,
      InLegalBert.s1Tail, InLegalBert.s1Group, InLegalBert.dotDigitRuns,
      InLegalBert.alnumParens, InLegalBert.s4Group, InLegalBert.s4Go,
      InLegalBert.upsert, InLegalBert.upsertAll, InLegalBert.sortedKeys,
      InLegalBert.dictLookup, InLegalBert.advanceLabel, InLegalBert.splitOnNN,
      InLegalBert.splitOnNl, InLegalBert.paragraphsOf, InLegalBert.findSub,
      InLegalBert.findSubGo, InLegalBert.forceGo, InLegalBert.slpGo,
      InLegalBert.split_large_paragraph, InLegalBert.isHeader,
      InLegalBert.unknownLabel, InLegalBert.ptGo, InLegalBert.MIN_CHUNK_WORDS,
      InLegalBert.MAX_CHUNK_LENGTH, pyWords, pyWs, pyStrip, sepJoin]

/-- C7 (amended): when zero chapter markers are detected in the cleaned
text — the chapter position dictionary is empty — every chunk emitted by
`process_text` is labeled with the `"Unknown"` chapter sentinel (there
is exactly one chapter label in play, the initial `"Unknown"`, which
spans the whole document; no "Entire Document" sentinel exists in the
code). -/
theorem C7_empty_chapter_amended (text doc_source : Str)
    (h : InLegalBert.chapterDict (InLegalBert.cleanText text) = []) :
    ∀ m ∈ (InLegalBert.process_text text doc_source).2,
      m.chapter = InLegalBert.unknownLabel := by
  intro m hm
  have h2 : (InLegalBert.process_text text doc_source).2 =
      (InLegalBert.ptGo (InLegalBert.cleanText text) doc_source
        (InLegalBert.chapterDict (InLegalBert.cleanText text))
        (InLegalBert.sectionDict (InLegalBert.cleanText text))
        (InLegalBert.paragraphsOf (InLegalBert.cleanText text))
        InLegalBert.unknownLabel InLegalBert.unknownLabel).2 := rfl
  rw [h2, h] at hm
  exact ptGo_chapter_const _ _ _ _ _ _ m hm

/-- Witness for C7 (amended) at a concrete chapterless document. -/
theorem C7_empty_chapter_witness :
    InLegalBert.chapterDict (InLegalBert.cleanText
        "x y z only plain lowercase words appear here so that no chapter or level marker can ever match anything at all".data) = [] ∧
    ∀ m ∈ (InLegalBert.process_text
        "x y z only plain lowercase words appear here so that no chapter or level marker can ever match anything at all".data
        "src".data).2,
      m.chapter = InLegalBert.unknownLabel := by
  have h : InLegalBert.chapterDict (InLegalBert.cleanText
      "x y z only plain lowercase words appear here so that no chapter or level marker can ever match anything at all".data) = [] := by
    simp [InLegalBert.chapterDict, InLegalBert.finditerGo,
      InLegalBert.anchoredIter, InLegalBert.tryChap1, InLegalBert.tryChap2,
      InLegalBert.tryChap3, InLegalBert.tryChap4, InLegalBert.litMatch,
      InLegalBert.wordBoundaryPre, InLegalBert.isWordChar, InLegalBert.isRoman,
      InLegalBert.romanGroup, InLegalBert.numLetterGroup,
      InLegalBert.litWsGroupGo, InLegalBert.litWsGroup, InLegalBert.upperOrWs,
      InLegalBert.p3Search, InLegalBert.p3Group, InLegalBert.upsert,
      InLegalBert.upsertAll, InLegalBert.cleanText, InLegalBert.wsCollapse,
      InLegalBert.nonAscii, InLegalBert.nonAsciiCollapse, pyWs, pyStrip]
  exact ⟨h, C7_empty_chapter_amended _ _ h⟩

/-!
## Claim C6: idempotence of `clean_content`
-/

/-- `removeBlocks` leaves newline-free text unchanged. -/
theorem removeBlocks_noNl (s : Str) (h : '\n' ∉ s) :
    ExtractSections.removeBlocks s = s := by
  induction s with
  | nil => rw [ExtractSections.removeBlocks]
  | cons c r ih =>
    have hc : ¬ c = '\n' := fun hc => h (hc ▸ List.mem_cons_self c r)
    have hrun : ExtractSections.nlRun (c :: r) = 0 := by
      simp [ExtractSections.nlRun, List.takeWhile_cons, hc]
    rw [ExtractSections.removeBlocks, if_neg (by rw [hrun]; omega),
      ih (fun hm => h (List.mem_cons_of_mem c hm))]

/-- `delSpBeforeNl` leaves newline-free text unchanged. -/
theorem delSpBeforeNl_noNl (s : Str) (h : '\n' ∉ s) :
    ExtractSections.delSpBeforeNl s = s := by
  induction s using ExtractSections.delSpBeforeNl.induct with
  | case1 => rw [ExtractSections.delSpBeforeNl]
  | case2 r hh ih =>
    exfalso
    have hmem : '\n' ∈ r.dropWhile (fun x => decide (x = ' ')) := by
      cases hl : List.dropWhile (fun x => decide (x = ' ')) r with
      | nil => rw [hl] at hh; exact absurd hh (by simp)
      | cons a t =>
        rw [hl] at hh
        simp only [List.head?_cons, Option.some.injEq] at hh
        rw [← hh]
        exact List.mem_cons_self a t
    exact h (List.mem_cons_of_mem _ ((List.dropWhile_sublist _).subset hmem))
  | case3 r hh ih =>
    rw [ExtractSections.delSpBeforeNl, if_pos rfl, if_neg hh,
      ih (fun hm => h (List.mem_cons_of_mem _
        ((List.dropWhile_sublist _).subset hm)))]
    exact List.cons_append _ _ _ ▸ congrArg (' ' :: ·)
      (List.takeWhile_append_dropWhile ..)
  | case4 c r hc ih =>
    rw [ExtractSections.delSpBeforeNl, if_neg hc,
      ih (fun hm => h (List.mem_cons_of_mem c hm))]

/-- `singleNl` leaves newline-free text unchanged. -/
theorem singleNl_noNl (prev : Option Char) (s : Str) (h : '\n' ∉ s) :
    ExtractSections.singleNl prev s = s := by
  induction s generalizing prev with
  | nil => rfl
  | cons c r ih =>
    have hc : ¬ c = '\n' := fun hc => h (hc ▸ List.mem_cons_self c r)
    rw [ExtractSections.singleNl, if_neg (by simp [hc]),
      ih (some c) (fun hm => h (List.mem_cons_of_mem c hm))]

/-- `collapseNl3` leaves newline-free text unchanged. -/
theorem collapseNl3_noNl (s : Str) (h : '\n' ∉ s) :
    ExtractSections.collapseNl3 s = s := by
  induction s with
  | nil => rw [ExtractSections.collapseNl3]
  | cons c r ih =>
    have hc : ¬ c = '\n' := fun hc => h (hc ▸ List.mem_cons_self c r)
    rw [ExtractSections.collapseNl3, if_neg (by simp [hc]),
      ih (fun hm => h (List.mem_cons_of_mem c hm))]

/-- `removeArtifacts` leaves artifact-free text unchanged. -/
theorem removeArtifacts_id (s : Str)
    (h : ∀ c ∈ s, ExtractSections.isArtifact c = false) :
    ExtractSections.removeArtifacts s = s := by
  rw [ExtractSections.removeArtifacts]
  exact List.filter_eq_self.mpr (fun c hc => by simp [h c hc])

/-- Characters of `collapseSpTab` output come from the input or are a
space. -/
theorem collapseSpTab_chars (s : Str) :
    ∀ c ∈ ExtractSections.collapseSpTab s, c ∈ s ∨ c = ' ' := by
  induction s using ExtractSections.collapseSpTab.induct with
  | case1 => intro c hc; exact absurd hc (by simp [ExtractSections.collapseSpTab])
  | case2 c r hc ih =>
    intro x hx
    rw [ExtractSections.collapseSpTab, if_pos hc] at hx
    rcases List.mem_cons.mp hx with hx1 | hx
    · right; exact hx1
    · rcases ih x hx with hm | hs
      · exact Or.inl (List.mem_cons_of_mem c ((List.dropWhile_sublist _).subset hm))
      · exact Or.inr hs
  | case3 c r hc ih =>
    intro x hx
    rw [ExtractSections.collapseSpTab, if_neg hc] at hx
    rcases List.mem_cons.mp hx with hx1 | hx
    · exact Or.inl (hx1 ▸ List.mem_cons_self c r)
    · rcases ih x hx with hm | hs
      · exact Or.inl (List.mem_cons_of_mem c hm)
      · exact Or.inr hs

/-- Non-`'('` characters pass through `parenDigitFix` unchanged. -/
theorem parenDigitFix_cons_ne (c : Char) (r : Str) (hc : ¬ c = '(') :
    ExtractSections.parenDigitFix (c :: r) =
      c :: ExtractSections.parenDigitFix r :=
  ExtractSections.parenDigitFix.eq_3 c r (fun h => hc h)

/-- Characters of `parenDigitFix` output come from the input or are one
of `'('`, `')'`, `' '`. -/
theorem parenDigitFix_chars (s : Str) :
    ∀ c ∈ ExtractSections.parenDigitFix s,
      c ∈ s ∨ c = ' ' ∨ c = '(' ∨ c = ')' := by
  induction s using ExtractSections.parenDigitFix.induct with
  | case1 =>
    intro c hc
    rw [ExtractSections.parenDigitFix] at hc
    exact absurd hc (by simp)
  | case2 r hcond ih =>
    intro x hx
    rw [ExtractSections.parenDigitFix.eq_2, if_pos hcond] at hx
    rcases List.mem_cons.mp hx with h1 | hx
    · exact Or.inr (Or.inr (Or.inl h1))
    rcases List.mem_append.mp hx with h2 | hx
    · exact Or.inl (List.mem_cons_of_mem _ ((List.takeWhile_sublist _).subset h2))
    rcases List.mem_cons.mp hx with h3 | hx
    · exact Or.inr (Or.inr (Or.inr h3))
    rcases List.mem_cons.mp hx with h4 | hx
    · exact Or.inr (Or.inl h4)
    rcases ih x hx with hm | hs
    · refine Or.inl (List.mem_cons_of_mem _ ?_)
      have h5 := (List.dropWhile_sublist pyWs).subset hm
      have h6 := (List.tail_sublist (List.dropWhile Char.isDigit r)).subset h5
      exact (List.dropWhile_sublist Char.isDigit).subset h6
    · exact Or.inr hs
  | case3 r hcond ih =>
    intro x hx
    rw [ExtractSections.parenDigitFix.eq_2, if_neg hcond] at hx
    rcases List.mem_cons.mp hx with h1 | hx
    · exact Or.inr (Or.inr (Or.inl h1))
    rcases ih x hx with hm | hs
    · exact Or.inl (List.mem_cons_of_mem _ hm)
    · exact Or.inr hs
  | case4 c r hc ih =>
    intro x hx
    rw [ExtractSections.parenDigitFix.eq_3 c r hc] at hx
    rcases List.mem_cons.mp hx with h1 | hx
    · exact Or.inl (h1 ▸ List.mem_cons_self c r)
    rcases ih x hx with hm | hs
    · exact Or.inl (List.mem_cons_of_mem _ hm)
    · exact Or.inr hs

/-- Characters of `parenLetterFix` output come from the input or are one
of `'('`, `')'`, `' '`. -/
theorem parenLetterFix_chars (s : Str) :
    ∀ c ∈ ExtractSections.parenLetterFix s,
      c ∈ s ∨ c = ' ' ∨ c = '(' ∨ c = ')' := by
  induction s using ExtractSections.parenLetterFix.induct with
  | case1 =>
    intro c hc
    rw [ExtractSections.parenLetterFix] at hc
    exact absurd hc (by simp)
  | case2 a r2 ha ih =>
    intro x hx
    rw [ExtractSections.parenLetterFix.eq_2, if_pos ha] at hx
    rcases List.mem_cons.mp hx with h1 | hx
    · exact Or.inr (Or.inr (Or.inl h1))
    rcases List.mem_cons.mp hx with h2 | hx
    · exact Or.inl (h2 ▸ List.mem_cons_of_mem _ (List.mem_cons_self _ _))
    rcases List.mem_cons.mp hx with h3 | hx
    · exact Or.inr (Or.inr (Or.inr h3))
    rcases List.mem_cons.mp hx with h4 | hx
    · exact Or.inr (Or.inl h4)
    rcases ih x hx with hm | hs
    · refine Or.inl (List.mem_cons_of_mem _ (List.mem_cons_of_mem _
        (List.mem_cons_of_mem _ ((List.dropWhile_sublist pyWs).subset hm))))
    · exact Or.inr hs
  | case3 a r2 ha ih =>
    intro x hx
    rw [ExtractSections.parenLetterFix.eq_2, if_neg ha] at hx
    rcases List.mem_cons.mp hx with h1 | hx
    · exact Or.inr (Or.inr (Or.inl h1))
    rcases ih x hx with hm | hs
    · exact Or.inl (List.mem_cons_of_mem _ hm)
    · exact Or.inr hs
  | case4 c r hc ih =>
    intro x hx
    rw [ExtractSections.parenLetterFix.eq_3 c r hc] at hx
    rcases List.mem_cons.mp hx with h1 | hx
    · exact Or.inl (h1 ▸ List.mem_cons_self c r)
    rcases ih x hx with hm | hs
    · exact Or.inl (List.mem_cons_of_mem _ hm)
    · exact Or.inr hs

/-- `parenDigitFix` preserves the first character. -/
theorem parenDigitFix_head (s : Str) :
    (ExtractSections.parenDigitFix s).head? = s.head? := by
  induction s using ExtractSections.parenDigitFix.induct with
  | case1 => rw [ExtractSections.parenDigitFix]
  | case2 r hcond ih => rw [ExtractSections.parenDigitFix.eq_2, if_pos hcond]; rfl
  | case3 r hcond ih => rw [ExtractSections.parenDigitFix.eq_2, if_neg hcond]; rfl
  | case4 c r hc ih => rw [ExtractSections.parenDigitFix.eq_3 c r hc]; rfl

/-- `parenLetterFix` preserves the first character. -/
theorem parenLetterFix_head (s : Str) :
    (ExtractSections.parenLetterFix s).head? = s.head? := by
  induction s using ExtractSections.parenLetterFix.induct with
  | case1 => rw [ExtractSections.parenLetterFix]
  | case2 a r2 ha ih => rw [ExtractSections.parenLetterFix.eq_2, if_pos ha]; rfl
  | case3 a r2 ha ih => rw [ExtractSections.parenLetterFix.eq_2, if_neg ha]; rfl
  | case4 c r hc ih => rw [ExtractSections.parenLetterFix.eq_3 c r hc]; rfl

/-- `collapseSpTab` never lengthens a string. -/
theorem collapseSpTab_len (s : Str) :
    (ExtractSections.collapseSpTab s).length ≤ s.length := by
  induction s using ExtractSections.collapseSpTab.induct with
  | case1 => rw [ExtractSections.collapseSpTab]
  | case2 c r hc ih =>
    rw [ExtractSections.collapseSpTab, if_pos hc]
    have := lenDropWhileLe (fun x => x = ' ' || x = '\t') r
    simp only [List.length_cons]
    omega
  | case3 c r hc ih =>
    rw [ExtractSections.collapseSpTab, if_neg hc]
    simp only [List.length_cons]
    omega

/-- `collapseSpTab` maps the first character to a space when it is
whitespace and keeps it otherwise. -/
theorem collapseSpTab_head (s : Str) :
    (ExtractSections.collapseSpTab s).head? =
      s.head?.map (fun c => if c = ' ' || c = '\t' then ' ' else c) := by
  cases s with
  | nil => rw [ExtractSections.collapseSpTab]; rfl
  | cons c r =>
    rw [ExtractSections.collapseSpTab]
    by_cases hc : (c = ' ' || c = '\t') = true
    · rw [if_pos hc]
      have hor : c = ' ' ∨ c = '\t' := by simpa using hc
      rcases hor with h1 | h1 <;> simp [h1]
    · rw [if_neg hc]
      have hand : ¬c = ' ' ∧ ¬c = '\t' := by simpa using hc
      simp [hand.1, hand.2]

/-- A string fixed by `dropWhile` has a failing head. -/
theorem dropWhile_eq_self_head (p : Char → Bool) (l : Str)
    (h : l.dropWhile p = l) : ∀ c, l.head? = some c → p c = false := by
  intro c hc
  cases l with
  | nil => simp at hc
  | cons a t =>
    simp only [List.head?_cons, Option.some.injEq] at hc
    by_contra hp
    rw [List.dropWhile_cons, if_pos (by rw [hc]; simpa using hp)] at h
    have := congrArg List.length h
    have hle := lenDropWhileLe p t
    simp only [List.length_cons] at this
    omega

/-- A string fixed by `collapseSpTab` beginning with a space continues
with a non-whitespace character, and its tail is fixed as well. -/
theorem collapseSpTab_eq_cons (c : Char) (r : Str)
    (h : ExtractSections.collapseSpTab (c :: r) = c :: r) :
    ExtractSections.collapseSpTab r = r ∧
      ((c = ' ' || c = '\t') = true →
        ∀ d, r.head? = some d → (d = ' ' || d = '\t') = false) := by
  by_cases hc : (c = ' ' || c = '\t') = true
  · rw [ExtractSections.collapseSpTab, if_pos hc] at h
    have htl : ExtractSections.collapseSpTab
        (r.dropWhile (fun x => x = ' ' || x = '\t')) = r :=
      (List.cons.injEq _ _ _ _ ▸ h).2
    have hlen1 := collapseSpTab_len (r.dropWhile (fun x => x = ' ' || x = '\t'))
    have hlen2 := lenDropWhileLe (fun x => x = ' ' || x = '\t') r
    have hlen3 := congrArg List.length htl
    have hdw : r.dropWhile (fun x => x = ' ' || x = '\t') = r :=
      (List.dropWhile_sublist _).eq_of_length (by omega)
    rw [hdw] at htl
    exact ⟨htl, fun _ => dropWhile_eq_self_head _ r hdw⟩
  · rw [ExtractSections.collapseSpTab, if_neg hc] at h
    exact ⟨(List.cons.injEq _ _ _ _ ▸ h).2, fun hcc => absurd hcc hc⟩

/-- "Fixed by `collapseSpTab`" is preserved by `dropWhile`. -/
theorem collapseSpTab_eq_dropWhile (p : Char → Bool) (r : Str)
    (h : ExtractSections.collapseSpTab r = r) :
    ExtractSections.collapseSpTab (r.dropWhile p) = r.dropWhile p := by
  induction r with
  | nil => simpa using h
  | cons c t ih =>
    rw [List.dropWhile_cons]
    by_cases hp : p c = true
    · rw [if_pos hp]
      exact ih (collapseSpTab_eq_cons c t h).1
    · rw [if_neg hp]
      exact h

/-- `collapseSpTab` is idempotent. -/
theorem collapseSpTab_idem (s : Str) :
    ExtractSections.collapseSpTab (ExtractSections.collapseSpTab s) =
      ExtractSections.collapseSpTab s := by
  induction s using ExtractSections.collapseSpTab.induct with
  | case1 => rw [ExtractSections.collapseSpTab]; rw [ExtractSections.collapseSpTab]
  | case2 c r hc ih =>
    rw [ExtractSections.collapseSpTab, if_pos hc]
    rw [ExtractSections.collapseSpTab, if_pos (by simp)]
    have hdw : (ExtractSections.collapseSpTab
        (r.dropWhile (fun x => x = ' ' || x = '\t'))).dropWhile
          (fun x => x = ' ' || x = '\t') =
        ExtractSections.collapseSpTab
          (r.dropWhile (fun x => x = ' ' || x = '\t')) := by
      apply dropWhile_eq_self_of_head
      intro d hd
      rw [collapseSpTab_head] at hd
      cases hhd : (r.dropWhile (fun x => x = ' ' || x = '\t')).head? with
      | none => rw [hhd] at hd; simp at hd
      | some e =>
        rw [hhd] at hd
        have he := head_dropWhile_false _ r e hhd
        simp only [Option.map_some'] at hd
        have he2 : (decide (e = ' ') || decide (e = '\t')) = false := he
        rw [if_neg (by simp [he2])] at hd
        cases hd
        exact he
    rw [hdw, ih]
  | case3 c r hc ih =>
    rw [ExtractSections.collapseSpTab, if_neg hc]
    rw [ExtractSections.collapseSpTab, if_neg hc]
    rw [ih]

/-- A non-whitespace (Python sense) character is neither space nor tab. -/
theorem not_pyWs_not_sp (c : Char) (h : pyWs c = false) :
    (c = ' ' || c = '\t') = false := by
  simp only [pyWs] at h
  simp only [Bool.or_eq_false_iff] at h ⊢
  exact ⟨h.1.1.1.1.1, h.1.1.1.1.2⟩

/-- A digit is neither space nor tab. -/
theorem digit_not_sp (c : Char) (h : c.isDigit = true) :
    (c = ' ' || c = '\t') = false := by
  by_contra hb
  simp only [Bool.or_eq_false_iff, not_and_or] at hb
  rcases hb with h1 | h1 <;>
    [skip; skip] <;>
    · simp only [decide_eq_false_iff_not, not_not] at h1
      rw [h1] at h
      exact absurd h (by decide)

/-- A digit is not an opening parenthesis. -/
theorem digit_ne_paren (c : Char) (h : c.isDigit = true) : ¬ c = '(' := by
  intro h2
  rw [h2] at h
  exact absurd h (by decide)

/-- `collapseSpTab` on a non-whitespace head steps over it. -/
theorem cst_cons_nonsp (c : Char) (r : Str)
    (hc : (c = ' ' || c = '\t') = false) :
    ExtractSections.collapseSpTab (c :: r) =
      c :: ExtractSections.collapseSpTab r := by
  rw [ExtractSections.collapseSpTab, if_neg (by simp [hc])]

/-- `collapseSpTab` passes over a whitespace-free prefix. -/
theorem cst_append_nonsp (a y : Str)
    (ha : ∀ c ∈ a, (c = ' ' || c = '\t') = false) :
    ExtractSections.collapseSpTab (a ++ y) =
      a ++ ExtractSections.collapseSpTab y := by
  induction a with
  | nil => rfl
  | cons c aa ih =>
    rw [List.cons_append, cst_cons_nonsp c _ (ha c (List.mem_cons_self c aa)),
      ih (fun d hd => ha d (List.mem_cons_of_mem c hd))]
    rfl

/-- "Fixed by `collapseSpTab`" is preserved by `tail`. -/
theorem collapseSpTab_eq_tail (r : Str)
    (h : ExtractSections.collapseSpTab r = r) :
    ExtractSections.collapseSpTab r.tail = r.tail := by
  cases r with
  | nil => simpa using h
  | cons c t => exact (collapseSpTab_eq_cons c t h).1

/-- `parenDigitFix` preserves being fixed by `collapseSpTab`. -/
theorem cst_p7 (x : Str) (h : ExtractSections.collapseSpTab x = x) :
    ExtractSections.collapseSpTab (ExtractSections.parenDigitFix x) =
      ExtractSections.parenDigitFix x := by
  induction x using ExtractSections.parenDigitFix.induct with
  | case1 => rw [ExtractSections.parenDigitFix]; exact h
  | case2 r hcond ih =>
    have hr : ExtractSections.collapseSpTab r = r :=
      (collapseSpTab_eq_cons _ _ h).1
    have ht : ExtractSections.collapseSpTab
        (List.dropWhile pyWs (List.dropWhile Char.isDigit r).tail) =
        List.dropWhile pyWs (List.dropWhile Char.isDigit r).tail :=
      collapseSpTab_eq_dropWhile pyWs _
        (collapseSpTab_eq_tail _ (collapseSpTab_eq_dropWhile Char.isDigit r hr))
    rw [ExtractSections.parenDigitFix.eq_2, if_pos hcond]
    rw [cst_append_nonsp ('(' :: List.takeWhile Char.isDigit r) _ (by
      intro d hd
      rcases List.mem_cons.mp hd with h1 | h1
      · rw [h1]; decide
      · exact digit_not_sp d (List.mem_takeWhile_imp h1))]
    rw [cst_cons_nonsp ')' _ (by decide)]
    rw [ExtractSections.collapseSpTab, if_pos (by simp)]
    have hdp : (ExtractSections.parenDigitFix
        (List.dropWhile pyWs (List.dropWhile Char.isDigit r).tail)).dropWhile
          (fun x => x = ' ' || x = '\t') =
        ExtractSections.parenDigitFix
          (List.dropWhile pyWs (List.dropWhile Char.isDigit r).tail) := by
      apply dropWhile_eq_self_of_head
      intro c hc
      rw [parenDigitFix_head] at hc
      exact not_pyWs_not_sp c (head_dropWhile_false pyWs _ c hc)
    rw [hdp, ih ht]
  | case3 r hcond ih =>
    have hr : ExtractSections.collapseSpTab r = r :=
      (collapseSpTab_eq_cons _ _ h).1
    rw [ExtractSections.parenDigitFix.eq_2, if_neg hcond]
    rw [cst_cons_nonsp '(' _ (by decide), ih hr]
  | case4 c r hc ih =>
    have hr : ExtractSections.collapseSpTab r = r :=
      (collapseSpTab_eq_cons _ _ h).1
    rw [ExtractSections.parenDigitFix.eq_3 c r hc]
    by_cases hsp : (c = ' ' || c = '\t') = true
    · have hd := (collapseSpTab_eq_cons _ _ h).2 hsp
      have hcsp : c = ' ' := by
        have := h
        rw [ExtractSections.collapseSpTab, if_pos hsp] at this
        exact ((List.cons.injEq _ _ _ _ ▸ this).1).symm
      rw [ExtractSections.collapseSpTab, if_pos hsp]
      have hdp : (ExtractSections.parenDigitFix r).dropWhile
          (fun x => x = ' ' || x = '\t') = ExtractSections.parenDigitFix r := by
        apply dropWhile_eq_self_of_head
        intro d hdd
        rw [parenDigitFix_head] at hdd
        exact hd d hdd
      rw [hdp, ih hr, hcsp]
    · rw [cst_cons_nonsp c _ (by simpa using hsp), ih hr]

/-- Non-matching characters pass through `parenLetterFix` unchanged. -/
theorem parenLetterFix_cons_ne (c : Char) (r : Str) (hc : ¬ c = '(') :
    ExtractSections.parenLetterFix (c :: r) =
      c :: ExtractSections.parenLetterFix r :=
  ExtractSections.parenLetterFix.eq_3 c r (fun _ _ h _ => hc h)

/-- `parenLetterFix` preserves being fixed by `collapseSpTab`. -/
theorem cst_p8 (x : Str) (h : ExtractSections.collapseSpTab x = x) :
    ExtractSections.collapseSpTab (ExtractSections.parenLetterFix x) =
      ExtractSections.parenLetterFix x := by
  induction x using ExtractSections.parenLetterFix.induct with
  | case1 => rw [ExtractSections.parenLetterFix]; exact h
  | case2 a r2 ha ih =>
    have hr1 : ExtractSections.collapseSpTab (a :: ')' :: r2) = a :: ')' :: r2 :=
      (collapseSpTab_eq_cons _ _ h).1
    have hr2 : ExtractSections.collapseSpTab (')' :: r2) = ')' :: r2 :=
      (collapseSpTab_eq_cons _ _ hr1).1
    have hr3 : ExtractSections.collapseSpTab r2 = r2 :=
      (collapseSpTab_eq_cons _ _ hr2).1
    have ht : ExtractSections.collapseSpTab (List.dropWhile pyWs r2) =
        List.dropWhile pyWs r2 := collapseSpTab_eq_dropWhile pyWs r2 hr3
    rw [ExtractSections.parenLetterFix.eq_2, if_pos ha]
    rw [cst_cons_nonsp '(' _ (by decide)]
    have hasp : (a = ' ' || a = '\t') = false := by
      simp only [ExtractSections.isLowerAZ] at ha
      simp only [Bool.or_eq_false_iff, decide_eq_false_iff_not]
      constructor <;> intro h1 <;> rw [h1] at ha <;> exact absurd ha (by decide)
    rw [cst_cons_nonsp a _ hasp]
    rw [cst_cons_nonsp ')' _ (by decide)]
    rw [ExtractSections.collapseSpTab, if_pos (by simp)]
    have hdp : (ExtractSections.parenLetterFix
        (List.dropWhile pyWs r2)).dropWhile (fun x => x = ' ' || x = '\t') =
        ExtractSections.parenLetterFix (List.dropWhile pyWs r2) := by
      apply dropWhile_eq_self_of_head
      intro c hc
      rw [parenLetterFix_head] at hc
      exact not_pyWs_not_sp c (head_dropWhile_false pyWs _ c hc)
    rw [hdp, ih ht]
  | case3 a r2 ha ih =>
    have hr : ExtractSections.collapseSpTab (a :: ')' :: r2) = a :: ')' :: r2 :=
      (collapseSpTab_eq_cons _ _ h).1
    rw [ExtractSections.parenLetterFix.eq_2, if_neg ha]
    rw [cst_cons_nonsp '(' _ (by decide), ih hr]
  | case4 c r hc ih =>
    have hr : ExtractSections.collapseSpTab r = r :=
      (collapseSpTab_eq_cons _ _ h).1
    rw [ExtractSections.parenLetterFix.eq_3 c r hc]
    by_cases hsp : (c = ' ' || c = '\t') = true
    · have hd := (collapseSpTab_eq_cons _ _ h).2 hsp
      have hcsp : c = ' ' := by
        have h0 := h
        rw [ExtractSections.collapseSpTab, if_pos hsp] at h0
        exact ((List.cons.injEq _ _ _ _ ▸ h0).1).symm
      rw [ExtractSections.collapseSpTab, if_pos hsp]
      have hdp : (ExtractSections.parenLetterFix r).dropWhile
          (fun x => x = ' ' || x = '\t') = ExtractSections.parenLetterFix r := by
        apply dropWhile_eq_self_of_head
        intro d hdd
        rw [parenLetterFix_head] at hdd
        exact hd d hdd
      rw [hdp, ih hr, hcsp]
    · rw [cst_cons_nonsp c _ (by simpa using hsp), ih hr]

/-- `takeWhile` keeps a list all of whose elements pass. -/
theorem takeWhile_all (p : Char → Bool) (l : Str)
    (h : ∀ c ∈ l, p c = true) : l.takeWhile p = l := by
  induction l with
  | nil => rfl
  | cons c t ih =>
    rw [List.takeWhile_cons, if_pos (h c (List.mem_cons_self c t)),
      ih (fun d hd => h d (List.mem_cons_of_mem c hd))]

/-- `dropWhile` empties a list all of whose elements pass. -/
theorem dropWhile_all (p : Char → Bool) (l : Str)
    (h : ∀ c ∈ l, p c = true) : l.dropWhile p = [] := by
  induction l with
  | nil => rfl
  | cons c t ih =>
    rw [List.dropWhile_cons, if_pos (h c (List.mem_cons_self c t)),
      ih (fun d hd => h d (List.mem_cons_of_mem c hd))]

/-- `takeWhile` passes over an all-passing prefix. -/
theorem takeWhile_append_all (p : Char → Bool) (d z : Str)
    (hd : ∀ c ∈ d, p c = true) :
    (d ++ z).takeWhile p = d ++ z.takeWhile p := by
  induction d with
  | nil => rfl
  | cons c t ih =>
    rw [List.cons_append, List.takeWhile_cons,
      if_pos (hd c (List.mem_cons_self c t)),
      ih (fun e he => hd e (List.mem_cons_of_mem c he))]
    rfl

/-- `dropWhile` erases an all-passing prefix. -/
theorem dropWhile_append_all (p : Char → Bool) (d z : Str)
    (hd : ∀ c ∈ d, p c = true) :
    (d ++ z).dropWhile p = z.dropWhile p := by
  induction d with
  | nil => rfl
  | cons c t ih =>
    rw [List.cons_append, List.dropWhile_cons,
      if_pos (hd c (List.mem_cons_self c t)),
      ih (fun e he => hd e (List.mem_cons_of_mem c he))]

/-- `takeWhile` of a list with a failing head is empty. -/
theorem takeWhile_nil_head (p : Char → Bool) (l : Str)
    (h : ∀ c, l.head? = some c → p c = false) : l.takeWhile p = [] := by
  cases l with
  | nil => rfl
  | cons c t => rw [List.takeWhile_cons, if_neg (by simp [h c rfl])]

/-- A lowercase letter is not a digit. -/
theorem lower_not_digit (c : Char) (h : ExtractSections.isLowerAZ c = true) :
    c.isDigit = false := by
  simp only [ExtractSections.isLowerAZ, Bool.and_eq_true, decide_eq_true_eq] at h
  by_contra hb
  simp only [Bool.not_eq_false, Char.isDigit, Bool.and_eq_true,
    decide_eq_true_eq] at hb
  have h1 : 'a' ≤ '9' := le_trans h.1 hb.2
  exact absurd h1 (by decide)

/-- A lowercase letter is not an opening parenthesis. -/
theorem lower_ne_paren (c : Char) (h : ExtractSections.isLowerAZ c = true) :
    ¬ c = '(' := by
  intro h2
  rw [h2] at h
  exact absurd h (by decide)

/-- Digits pass through `parenDigitFix` unchanged. -/
theorem p7_digits_append (d y : Str) (hd : ∀ c ∈ d, c.isDigit = true) :
    ExtractSections.parenDigitFix (d ++ y) =
      d ++ ExtractSections.parenDigitFix y := by
  induction d with
  | nil => rfl
  | cons c t ih =>
    rw [List.cons_append,
      parenDigitFix_cons_ne c _ (digit_ne_paren c (hd c (List.mem_cons_self c t))),
      ih (fun e he => hd e (List.mem_cons_of_mem c he))]
    rfl

/-- A parenthesis-free prefix passes through `parenLetterFix` unchanged. -/
theorem p8_nonparen_append (d y : Str) (hd : ∀ c ∈ d, ¬ c = '(') :
    ExtractSections.parenLetterFix (d ++ y) =
      d ++ ExtractSections.parenLetterFix y := by
  induction d with
  | nil => rfl
  | cons c t ih =>
    rw [List.cons_append,
      parenLetterFix_cons_ne c _ (hd c (List.mem_cons_self c t)),
      ih (fun e he => hd e (List.mem_cons_of_mem c he))]
    rfl

/-- Destructing a `parenDigitFix`-fixed string that begins with a matching
parenthesized number: the number is followed by exactly one space, the
continuation is itself fixed, and it starts with a non-whitespace
character. -/
theorem p7_normal_destruct (r : Str)
    (hcond : (decide (1 ≤ (List.takeWhile Char.isDigit r).length) &&
      decide ((List.dropWhile Char.isDigit r).head? = some ')')) = true)
    (h : ExtractSections.parenDigitFix ('(' :: r) = '(' :: r) :
    r = List.takeWhile Char.isDigit r ++ ')' :: ' ' ::
        List.dropWhile pyWs (List.dropWhile Char.isDigit r).tail ∧
      ExtractSections.parenDigitFix
          (List.dropWhile pyWs (List.dropWhile Char.isDigit r).tail) =
        List.dropWhile pyWs (List.dropWhile Char.isDigit r).tail ∧
      (∀ c, (List.dropWhile pyWs
          (List.dropWhile Char.isDigit r).tail).head? = some c →
        pyWs c = false) := by
  rw [ExtractSections.parenDigitFix.eq_2, if_pos hcond, List.cons_append] at h
  have hr : r = List.takeWhile Char.isDigit r ++ ')' :: ' ' ::
      ExtractSections.parenDigitFix
        (List.dropWhile pyWs (List.dropWhile Char.isDigit r).tail) :=
    ((List.cons.injEq _ _ _ _).mp h).2.symm
  have hdw : List.dropWhile Char.isDigit r = ')' :: ' ' ::
      ExtractSections.parenDigitFix
        (List.dropWhile pyWs (List.dropWhile Char.isDigit r).tail) := by
    conv_lhs => rw [hr]
    rw [dropWhile_append_all Char.isDigit _ _
      (fun c hc => List.mem_takeWhile_imp hc)]
    rw [List.dropWhile_cons, if_neg (by decide)]
  have hT : List.dropWhile pyWs (List.dropWhile Char.isDigit r).tail =
      List.dropWhile pyWs (ExtractSections.parenDigitFix
        (List.dropWhile pyWs (List.dropWhile Char.isDigit r).tail)) := by
    conv_lhs => rw [hdw]
    rw [List.tail_cons, List.dropWhile_cons, if_pos (by decide)]
  have hp7T : ExtractSections.parenDigitFix
      (List.dropWhile pyWs (List.dropWhile Char.isDigit r).tail) =
      List.dropWhile pyWs (List.dropWhile Char.isDigit r).tail := by
    cases hpt : ExtractSections.parenDigitFix
        (List.dropWhile pyWs (List.dropWhile Char.isDigit r).tail) with
    | nil =>
      have hTnil : List.dropWhile pyWs
          (List.dropWhile Char.isDigit r).tail = [] := by
        rw [hpt] at hT
        simpa using hT
      exact hTnil.symm
    | cons a as =>
      have hha : (List.dropWhile pyWs
          (List.dropWhile Char.isDigit r).tail).head? = some a := by
        rw [← parenDigitFix_head, hpt]
        rfl
      have hpw : pyWs a = false := by
        apply head_dropWhile_false pyWs (ExtractSections.parenDigitFix
          (List.dropWhile pyWs (List.dropWhile Char.isDigit r).tail))
        rw [← hT]
        exact hha
      have hT2 : List.dropWhile pyWs (List.dropWhile Char.isDigit r).tail =
          a :: as := by
        rw [hpt] at hT
        rw [List.dropWhile_cons, if_neg (by simp [hpw])] at hT
        exact hT
      exact hT2.symm
  refine ⟨by conv_lhs => rw [hr, hp7T], hp7T, ?_⟩
  intro c hc
  rw [hT] at hc
  exact head_dropWhile_false pyWs _ c hc

/-- Being fixed by `parenDigitFix` passes to the tail. -/
theorem p7_eq_cons (c : Char) (r : Str)
    (h : ExtractSections.parenDigitFix (c :: r) = c :: r) :
    ExtractSections.parenDigitFix r = r := by
  by_cases hc : c = '('
  · subst hc
    by_cases hcond : (decide (1 ≤ (List.takeWhile Char.isDigit r).length) &&
        decide ((List.dropWhile Char.isDigit r).head? = some ')')) = true
    · obtain ⟨hr, hp7T, hws⟩ := p7_normal_destruct r hcond h
      conv_lhs => rw [hr]
      rw [p7_digits_append _ _ (fun d hd => List.mem_takeWhile_imp hd)]
      rw [parenDigitFix_cons_ne ')' _ (by decide)]
      rw [parenDigitFix_cons_ne ' ' _ (by decide)]
      rw [hp7T, ← hr]
    · rw [ExtractSections.parenDigitFix.eq_2, if_neg hcond] at h
      exact ((List.cons.injEq _ _ _ _).mp h).2
  · rw [ExtractSections.parenDigitFix.eq_3 c r (fun hcc => hc hcc)] at h
    exact ((List.cons.injEq _ _ _ _).mp h).2

/-- Being fixed by `parenDigitFix` is preserved by `dropWhile`. -/
theorem p7_eq_dropWhile (p : Char → Bool) (r : Str)
    (h : ExtractSections.parenDigitFix r = r) :
    ExtractSections.parenDigitFix (r.dropWhile p) = r.dropWhile p := by
  induction r with
  | nil => simpa using h
  | cons c t ih =>
    rw [List.dropWhile_cons]
    by_cases hp : p c = true
    · rw [if_pos hp]
      exact ih (p7_eq_cons c t h)
    · rw [if_neg hp]
      exact h

/-- `parenDigitFix` is idempotent. -/
theorem p7_idem (x : Str) :
    ExtractSections.parenDigitFix (ExtractSections.parenDigitFix x) =
      ExtractSections.parenDigitFix x := by
  induction x using ExtractSections.parenDigitFix.induct with
  | case1 => rw [ExtractSections.parenDigitFix]; rw [ExtractSections.parenDigitFix]
  | case2 r hcond ih =>
    rw [ExtractSections.parenDigitFix.eq_2, if_pos hcond, List.cons_append]
    have htw : List.takeWhile Char.isDigit (List.takeWhile Char.isDigit r ++
        ')' :: ' ' :: ExtractSections.parenDigitFix
          (List.dropWhile pyWs (List.dropWhile Char.isDigit r).tail)) =
        List.takeWhile Char.isDigit r := by
      rw [takeWhile_append_all Char.isDigit _ _
        (fun c hc => List.mem_takeWhile_imp hc)]
      rw [List.takeWhile_cons, if_neg (by decide)]
      simp
    have hdww : List.dropWhile Char.isDigit (List.takeWhile Char.isDigit r ++
        ')' :: ' ' :: ExtractSections.parenDigitFix
          (List.dropWhile pyWs (List.dropWhile Char.isDigit r).tail)) =
        ')' :: ' ' :: ExtractSections.parenDigitFix
          (List.dropWhile pyWs (List.dropWhile Char.isDigit r).tail) := by
      rw [dropWhile_append_all Char.isDigit _ _
        (fun c hc => List.mem_takeWhile_imp hc)]
      rw [List.dropWhile_cons, if_neg (by decide)]
    rw [ExtractSections.parenDigitFix.eq_2, if_pos (by
      rw [htw, hdww]
      simp only [Bool.and_eq_true, decide_eq_true_eq] at hcond ⊢
      exact ⟨hcond.1, rfl⟩)]
    rw [htw, hdww, List.tail_cons, List.dropWhile_cons, if_pos (by decide)]
    have hdps : (ExtractSections.parenDigitFix
        (List.dropWhile pyWs (List.dropWhile Char.isDigit r).tail)).dropWhile
          pyWs =
        ExtractSections.parenDigitFix
          (List.dropWhile pyWs (List.dropWhile Char.isDigit r).tail) := by
      apply dropWhile_eq_self_of_head
      intro c hc
      rw [parenDigitFix_head] at hc
      exact head_dropWhile_false pyWs _ c hc
    rw [hdps, ih, List.cons_append]
  | case3 r hcond ih =>
    rw [ExtractSections.parenDigitFix.eq_2, if_neg hcond]
    have hsplit := List.takeWhile_append_dropWhile (p := Char.isDigit) (l := r)
    have hp7r : ExtractSections.parenDigitFix r =
        List.takeWhile Char.isDigit r ++ ExtractSections.parenDigitFix
          (List.dropWhile Char.isDigit r) := by
      conv_lhs => rw [← hsplit]
      rw [p7_digits_append _ _ (fun c hc => List.mem_takeWhile_imp hc)]
    have htw2 : List.takeWhile Char.isDigit
        (ExtractSections.parenDigitFix r) =
        List.takeWhile Char.isDigit r := by
      rw [hp7r, takeWhile_append_all Char.isDigit _ _
        (fun c hc => List.mem_takeWhile_imp hc)]
      rw [takeWhile_nil_head Char.isDigit
        (ExtractSections.parenDigitFix (List.dropWhile Char.isDigit r))
        (fun c hc => by
          rw [parenDigitFix_head] at hc
          exact head_dropWhile_false Char.isDigit r c hc)]
      simp
    have hdw2 : (List.dropWhile Char.isDigit
        (ExtractSections.parenDigitFix r)).head? =
        (List.dropWhile Char.isDigit r).head? := by
      rw [hp7r, dropWhile_append_all Char.isDigit _ _
        (fun c hc => List.mem_takeWhile_imp hc)]
      rw [dropWhile_eq_self_of_head Char.isDigit
        (ExtractSections.parenDigitFix (List.dropWhile Char.isDigit r))
        (fun c hc => by
          rw [parenDigitFix_head] at hc
          exact head_dropWhile_false Char.isDigit r c hc)]
      rw [parenDigitFix_head]
    rw [ExtractSections.parenDigitFix.eq_2, if_neg (by
      rw [htw2, hdw2]
      exact hcond)]
    rw [ih]
  | case4 c r hc ih =>
    rw [ExtractSections.parenDigitFix.eq_3 c r hc]
    rw [ExtractSections.parenDigitFix.eq_3 c _ hc]
    rw [ih]

/-- `parenLetterFix` preserves the second character. -/
theorem p8_tail_head (r : Str) :
    (ExtractSections.parenLetterFix r).tail.head? = r.tail.head? := by
  induction r using ExtractSections.parenLetterFix.induct with
  | case1 => rw [ExtractSections.parenLetterFix]
  | case2 a r2 ha ih => rw [ExtractSections.parenLetterFix.eq_2, if_pos ha]; rfl
  | case3 a r2 ha ih =>
    rw [ExtractSections.parenLetterFix.eq_2, if_neg ha]
    simp only [List.tail_cons]
    rw [parenLetterFix_head]
  | case4 c r hc ih =>
    rw [ExtractSections.parenLetterFix.eq_3 c r hc]
    simp only [List.tail_cons]
    rw [parenLetterFix_head]

/-- `parenLetterFix` steps over an opening parenthesis that is not
followed by a lowercase letter in parentheses. -/
theorem p8_paren_cons (y : Str)
    (hy : ∀ c, y.head? = some c → ExtractSections.isLowerAZ c = false) :
    ExtractSections.parenLetterFix ('(' :: y) =
      '(' :: ExtractSections.parenLetterFix y := by
  match y with
  | [] =>
    exact ExtractSections.parenLetterFix.eq_3 '(' []
      (fun a r2 h1 h2 => List.noConfusion h2)
  | [A] =>
    refine ExtractSections.parenLetterFix.eq_3 '(' [A] (fun a r2 h1 h2 => ?_)
    rw [List.cons.injEq] at h2
    exact List.noConfusion h2.2
  | A :: B :: R =>
    by_cases hB : B = ')'
    · subst hB
      rw [ExtractSections.parenLetterFix.eq_2, if_neg (by simp [hy A rfl])]
    · refine ExtractSections.parenLetterFix.eq_3 '(' (A :: B :: R)
        (fun a r2 h1 h2 => ?_)
      rw [List.cons.injEq] at h2
      rw [List.cons.injEq] at h2
      exact hB h2.2.1

/-- `parenLetterFix` is idempotent. -/
theorem p8_idem (x : Str) :
    ExtractSections.parenLetterFix (ExtractSections.parenLetterFix x) =
      ExtractSections.parenLetterFix x := by
  induction x using ExtractSections.parenLetterFix.induct with
  | case1 => rw [ExtractSections.parenLetterFix]; rw [ExtractSections.parenLetterFix]
  | case2 a r2 ha ih =>
    rw [ExtractSections.parenLetterFix.eq_2, if_pos ha]
    rw [ExtractSections.parenLetterFix.eq_2, if_pos ha]
    rw [List.dropWhile_cons, if_pos (by decide)]
    have hdps : (ExtractSections.parenLetterFix
        (List.dropWhile pyWs r2)).dropWhile pyWs =
        ExtractSections.parenLetterFix (List.dropWhile pyWs r2) := by
      apply dropWhile_eq_self_of_head
      intro c hc
      rw [parenLetterFix_head] at hc
      exact head_dropWhile_false pyWs _ c hc
    rw [hdps, ih]
  | case3 a r2 ha ih =>
    rw [ExtractSections.parenLetterFix.eq_2, if_neg ha]
    rw [p8_paren_cons _ (fun c hc => by
      rw [parenLetterFix_head] at hc
      simp only [List.head?_cons, Option.some.injEq] at hc
      rw [← hc]
      exact Bool.not_eq_true _ ▸ (by simpa using ha))]
    rw [ih]
  | case4 c r hc ih =>
    rw [ExtractSections.parenLetterFix.eq_3 c r hc]
    by_cases hcp : c = '('
    · subst hcp
      have hshape : ∀ a r2,
          ¬ ExtractSections.parenLetterFix r = a :: ')' :: r2 := by
        intro a r2 hr
        have hth := p8_tail_head r
        rw [hr] at hth
        simp only [List.tail_cons, List.head?_cons] at hth
        cases hrr : r with
        | nil => rw [hrr] at hth; simp at hth
        | cons b t =>
          rw [hrr] at hth
          cases htt : t with
          | nil => rw [htt] at hth; simp at hth
          | cons e u =>
            rw [htt] at hth
            simp only [List.tail_cons, List.head?_cons,
              Option.some.injEq] at hth
            exact hc b u (by rfl) (by rw [hrr, htt, hth])
      rw [ExtractSections.parenLetterFix.eq_3 '(' _
        (fun a r2 h1 h2 => hshape a r2 h2)]
      rw [ih]
    · rw [parenLetterFix_cons_ne c _ hcp, ih]

/-- `parenLetterFix` does not change the leading digit run. -/
theorem p8_takeWhile_digits (r : Str) :
    List.takeWhile Char.isDigit (ExtractSections.parenLetterFix r) =
      List.takeWhile Char.isDigit r := by
  conv_rhs => rw [← List.takeWhile_append_dropWhile (p := Char.isDigit) (l := r)]
  conv_lhs => rw [← List.takeWhile_append_dropWhile (p := Char.isDigit) (l := r)]
  rw [p8_nonparen_append _ _ (fun c hc =>
    digit_ne_paren c (List.mem_takeWhile_imp hc))]
  rw [takeWhile_append_all Char.isDigit _ _
    (fun c hc => List.mem_takeWhile_imp hc)]
  rw [takeWhile_append_all Char.isDigit _ _
    (fun c hc => List.mem_takeWhile_imp hc)]
  rw [takeWhile_nil_head Char.isDigit
    (ExtractSections.parenLetterFix (List.dropWhile Char.isDigit r))
    (fun c hc => by
      rw [parenLetterFix_head] at hc
      exact head_dropWhile_false Char.isDigit r c hc)]
  rw [takeWhile_nil_head Char.isDigit (List.dropWhile Char.isDigit r)
    (fun c hc => head_dropWhile_false Char.isDigit r c hc)]

/-- `parenLetterFix` does not change the first character after the
leading digit run. -/
theorem p8_dropWhile_digits_head (r : Str) :
    (List.dropWhile Char.isDigit (ExtractSections.parenLetterFix r)).head? =
      (List.dropWhile Char.isDigit r).head? := by
  conv_lhs => rw [← List.takeWhile_append_dropWhile (p := Char.isDigit) (l := r)]
  rw [p8_nonparen_append _ _ (fun c hc =>
    digit_ne_paren c (List.mem_takeWhile_imp hc))]
  rw [dropWhile_append_all Char.isDigit _ _
    (fun c hc => List.mem_takeWhile_imp hc)]
  rw [dropWhile_eq_self_of_head Char.isDigit
    (ExtractSections.parenLetterFix (List.dropWhile Char.isDigit r))
    (fun c hc => by
      rw [parenLetterFix_head] at hc
      exact head_dropWhile_false Char.isDigit r c hc)]
  rw [parenLetterFix_head]

open ExtractSections in
/-- Step case for `p7_p8_normal`: an opening parenthesis in front of a
`parenDigitFix`-fixed continuation stays fixed after `parenLetterFix` is
applied to the continuation. -/
theorem p7_p8_paren_step (n : Nat)
    (ihn : ∀ w : Str, w.length ≤ n → parenDigitFix w = w →
      parenDigitFix (parenLetterFix w) = parenLetterFix w)
    (r : Str) (hr : r.length ≤ n)
    (h : parenDigitFix ('(' :: r) = '(' :: r) :
    parenDigitFix ('(' :: parenLetterFix r) = '(' :: parenLetterFix r := by
  by_cases hcond : (decide (1 ≤ (List.takeWhile Char.isDigit r).length) &&
      decide ((List.dropWhile Char.isDigit r).head? = some ')')) = true
  · obtain ⟨hreq, hT, hTw⟩ := p7_normal_destruct r hcond h
    have hp8r : parenLetterFix r = List.takeWhile Char.isDigit r ++
        ')' :: ' ' :: parenLetterFix (List.dropWhile pyWs
          (List.dropWhile Char.isDigit r).tail) := by
      conv_lhs => rw [hreq]
      rw [p8_nonparen_append _ _ (fun e he =>
        digit_ne_paren e (List.mem_takeWhile_imp he))]
      rw [parenLetterFix_cons_ne ')' _ (by decide)]
      rw [parenLetterFix_cons_ne ' ' _ (by decide)]
    rw [hp8r]
    have htke : List.takeWhile Char.isDigit
        (List.takeWhile Char.isDigit r ++ ')' :: ' ' :: parenLetterFix
          (List.dropWhile pyWs (List.dropWhile Char.isDigit r).tail)) =
        List.takeWhile Char.isDigit r := by
      rw [takeWhile_append_all Char.isDigit _ _
        (fun e he => List.mem_takeWhile_imp he)]
      rw [List.takeWhile_cons, if_neg (by decide)]
      simp
    have hdke : List.dropWhile Char.isDigit
        (List.takeWhile Char.isDigit r ++ ')' :: ' ' :: parenLetterFix
          (List.dropWhile pyWs (List.dropWhile Char.isDigit r).tail)) =
        ')' :: ' ' :: parenLetterFix
          (List.dropWhile pyWs (List.dropWhile Char.isDigit r).tail) := by
      rw [dropWhile_append_all Char.isDigit _ _
        (fun e he => List.mem_takeWhile_imp he)]
      rw [List.dropWhile_cons, if_neg (by decide)]
    rw [parenDigitFix.eq_2, if_pos (by
      rw [htke, hdke]
      simp only [Bool.and_eq_true, decide_eq_true_eq] at hcond ⊢
      exact ⟨hcond.1, rfl⟩)]
    rw [htke, hdke, List.tail_cons, List.dropWhile_cons, if_pos (by decide)]
    have hdps : (parenLetterFix (List.dropWhile pyWs
        (List.dropWhile Char.isDigit r).tail)).dropWhile pyWs =
        parenLetterFix (List.dropWhile pyWs
          (List.dropWhile Char.isDigit r).tail) := by
      apply dropWhile_eq_self_of_head
      intro e he
      rw [parenLetterFix_head] at he
      exact hTw e he
    rw [hdps]
    have hlenT : (List.dropWhile pyWs
        (List.dropWhile Char.isDigit r).tail).length ≤ n := by
      have h1 := lenDropWhileLe pyWs (List.dropWhile Char.isDigit r).tail
      have h2 : (List.dropWhile Char.isDigit r).tail.length ≤
          (List.dropWhile Char.isDigit r).length := by
        cases List.dropWhile Char.isDigit r <;> simp
      have h3 := lenDropWhileLe Char.isDigit r
      omega
    rw [ihn _ hlenT hT, List.cons_append]
  · rw [parenDigitFix.eq_2, if_neg hcond] at h
    have hw : parenDigitFix r = r := ((List.cons.injEq _ _ _ _).mp h).2
    rw [parenDigitFix.eq_2, if_neg (by
      rw [p8_takeWhile_digits, p8_dropWhile_digits_head]
      exact hcond)]
    rw [ihn r hr hw]

open ExtractSections in
/-- A string fixed by `parenDigitFix` stays fixed by it after
`parenLetterFix` is applied (bounded-length version for induction). -/
theorem p7_p8_aux (n : Nat) : ∀ z : Str, z.length ≤ n →
    parenDigitFix z = z →
    parenDigitFix (parenLetterFix z) = parenLetterFix z := by
  induction n with
  | zero =>
    intro z hz h
    have hznil : z = [] := List.eq_nil_of_length_eq_zero (Nat.le_zero.mp hz)
    subst hznil
    rw [parenLetterFix]
    exact h
  | succ n ihn =>
    intro z hz h
    rcases z with _ | ⟨c, z1⟩
    · rw [parenLetterFix]
      exact h
    rcases z1 with _ | ⟨a2, z2⟩
    · have hp8 : parenLetterFix [c] = [c] := by
        rw [parenLetterFix.eq_3 c [] (fun a r2 h1 h2 => List.noConfusion h2)]
        rw [parenLetterFix]
      rw [hp8]
      exact h
    rcases z2 with _ | ⟨b, r2⟩
    · have hp8a : parenLetterFix [a2] = [a2] := by
        rw [parenLetterFix.eq_3 a2 [] (fun a r2 h1 h2 => List.noConfusion h2)]
        rw [parenLetterFix]
      have hp8 : parenLetterFix [c, a2] = [c, a2] := by
        rw [parenLetterFix.eq_3 c [a2] (fun a r2 h1 h2 => by
          rw [List.cons.injEq] at h2
          exact List.noConfusion h2.2)]
        rw [hp8a]
      rw [hp8]
      exact h
    by_cases hcb : c = '(' ∧ b = ')'
    · obtain ⟨hc1, hb1⟩ := hcb
      subst hc1
      subst hb1
      by_cases hla : isLowerAZ a2 = true
      · have hnd : Char.isDigit a2 = false := lower_not_digit a2 hla
        have hcondz : ¬(decide (1 ≤
            (List.takeWhile Char.isDigit (a2 :: ')' :: r2)).length) &&
            decide ((List.dropWhile Char.isDigit
              (a2 :: ')' :: r2)).head? = some ')')) = true := by
          rw [List.takeWhile_cons, if_neg (by simp [hnd])]
          simp
        rw [parenDigitFix.eq_2, if_neg hcondz] at h
        have hw : parenDigitFix (a2 :: ')' :: r2) = a2 :: ')' :: r2 :=
          ((List.cons.injEq _ _ _ _).mp h).2
        have hr2 : parenDigitFix r2 = r2 := by
          have h1 := hw
          rw [parenDigitFix_cons_ne a2 _ (lower_ne_paren a2 hla)] at h1
          have h2 := ((List.cons.injEq _ _ _ _).mp h1).2
          rw [parenDigitFix_cons_ne ')' _ (by decide)] at h2
          exact ((List.cons.injEq _ _ _ _).mp h2).2
        rw [parenLetterFix.eq_2, if_pos hla]
        rw [parenDigitFix.eq_2, if_neg (by
          rw [List.takeWhile_cons, if_neg (by simp [hnd])]
          simp)]
        rw [parenDigitFix_cons_ne a2 _ (lower_ne_paren a2 hla)]
        rw [parenDigitFix_cons_ne ')' _ (by decide)]
        rw [parenDigitFix_cons_ne ' ' _ (by decide)]
        have hlen : (List.dropWhile pyWs r2).length ≤ n := by
          have h1 := lenDropWhileLe pyWs r2
          simp only [List.length_cons] at hz
          omega
        rw [ihn (List.dropWhile pyWs r2) hlen (p7_eq_dropWhile pyWs r2 hr2)]
      · rw [parenLetterFix.eq_2, if_neg hla]
        have hlen : (a2 :: ')' :: r2).length ≤ n := by
          simp only [List.length_cons] at hz ⊢
          omega
        exact p7_p8_paren_step n ihn (a2 :: ')' :: r2) hlen h
    · rw [parenLetterFix.eq_3 c _ (fun A R h1 h2 => by
        rw [List.cons.injEq] at h2
        have h4 := h2.2
        rw [List.cons.injEq] at h4
        exact hcb ⟨h1, h4.1⟩)]
      by_cases hc : c = '('
      · subst hc
        have hlen : (a2 :: b :: r2).length ≤ n := by
          simp only [List.length_cons] at hz ⊢
          omega
        exact p7_p8_paren_step n ihn (a2 :: b :: r2) hlen h
      · rw [parenDigitFix_cons_ne c _ hc] at h
        have hw : parenDigitFix (a2 :: b :: r2) = a2 :: b :: r2 :=
          ((List.cons.injEq _ _ _ _).mp h).2
        rw [parenDigitFix_cons_ne c _ hc]
        have hlen : (a2 :: b :: r2).length ≤ n := by
          simp only [List.length_cons] at hz ⊢
          omega
        rw [ihn _ hlen hw]

/-- A string in `parenDigitFix` normal form stays in it after
`parenLetterFix`. -/
theorem p7_p8_normal (z : Str)
    (h : ExtractSections.parenDigitFix z = z) :
    ExtractSections.parenDigitFix (ExtractSections.parenLetterFix z) =
      ExtractSections.parenLetterFix z :=
  p7_p8_aux z.length z (le_refl _) h

/-- C6: refuted as stated. `clean_content` is not idempotent: on
"a\n b" the first pass turns the lone newline into a space, producing
"a  b" with a double space (the space collapse ran before the newline
substitution), and a second pass collapses that double space to "a b". -/
theorem C6_idempotence_counterexample :
    ExtractSections.clean_content
        (ExtractSections.clean_content "a\n b".data) ≠
      ExtractSections.clean_content "a\n b".data := by
  have h1 : ExtractSections.clean_content "a\n b".data = "a  b".data := by
    simp [ExtractSections.clean_content, ExtractSections.removeArtifacts,
      ExtractSections.isArtifact, ExtractSections.removeBlocks,
      ExtractSections.hasNN, ExtractSections.nlRun, ExtractSections.skipToNN,
      ExtractSections.collapseSpTab, ExtractSections.delSpBeforeNl,
      ExtractSections.singleNl, ExtractSections.collapseNl3,
      ExtractSections.parenDigitFix, ExtractSections.isLowerAZ,
      ExtractSections.parenLetterFix, pyWs]
  have h2 : ExtractSections.clean_content "a  b".data = "a b".data := by
    simp [ExtractSections.clean_content, ExtractSections.removeArtifacts,
      ExtractSections.isArtifact, ExtractSections.removeBlocks,
      ExtractSections.hasNN, ExtractSections.nlRun, ExtractSections.skipToNN,
      ExtractSections.collapseSpTab, ExtractSections.delSpBeforeNl,
      ExtractSections.singleNl, ExtractSections.collapseNl3,
      ExtractSections.parenDigitFix, ExtractSections.isLowerAZ,
      ExtractSections.parenLetterFix, pyWs]
  rw [h1, h2]
  decide

/-- C6 (amended): `clean_content` is idempotent on newline-free inputs.
The failure of idempotence is caused solely by the lone-newline
substitution `(?<!\n)\n(?!\n)` → `' '` running after the space collapse;
when the input contains no newline, one application of `clean_content`
is a fixed point of a second application. -/
theorem C6_idempotence_amended (s : Str) (h : '\n' ∉ s) :
    ExtractSections.clean_content (ExtractSections.clean_content s) =
      ExtractSections.clean_content s := by
  have hs1nl : '\n' ∉ ExtractSections.removeArtifacts s := by
    intro hm
    rw [ExtractSections.removeArtifacts] at hm
    exact h (List.mem_of_mem_filter hm)
  have hs2nl : '\n' ∉ ExtractSections.collapseSpTab
      (ExtractSections.removeArtifacts s) := by
    intro hm
    rcases collapseSpTab_chars _ _ hm with hm2 | hsp
    · exact hs1nl hm2
    · exact absurd hsp (by decide)
  have hs2art : ∀ c ∈ ExtractSections.collapseSpTab
      (ExtractSections.removeArtifacts s),
      ExtractSections.isArtifact c = false := by
    intro c hc
    rcases collapseSpTab_chars _ _ hc with hm2 | hsp
    · rw [ExtractSections.removeArtifacts] at hm2
      simpa using List.of_mem_filter hm2
    · rw [hsp]; decide
  have hccs : ExtractSections.clean_content s =
      ExtractSections.parenLetterFix (ExtractSections.parenDigitFix
        (ExtractSections.collapseSpTab
          (ExtractSections.removeArtifacts s))) := by
    rw [ExtractSections.clean_content]
    rw [removeBlocks_noNl _ hs1nl]
    rw [delSpBeforeNl_noNl _ hs2nl]
    rw [singleNl_noNl none _ hs2nl]
    rw [collapseNl3_noNl _ hs2nl]
  have hynl : '\n' ∉ ExtractSections.parenLetterFix
      (ExtractSections.parenDigitFix (ExtractSections.collapseSpTab
        (ExtractSections.removeArtifacts s))) := by
    intro hm
    rcases parenLetterFix_chars _ _ hm with hm1 | hsp
    · rcases parenDigitFix_chars _ _ hm1 with hm2 | hsp
      · exact hs2nl hm2
      · rcases hsp with h1 | h1 | h1 <;> exact absurd h1 (by decide)
    · rcases hsp with h1 | h1 | h1 <;> exact absurd h1 (by decide)
  have hyart : ∀ c ∈ ExtractSections.parenLetterFix
      (ExtractSections.parenDigitFix (ExtractSections.collapseSpTab
        (ExtractSections.removeArtifacts s))),
      ExtractSections.isArtifact c = false := by
    intro c hc
    rcases parenLetterFix_chars _ _ hc with hm1 | hsp
    · rcases parenDigitFix_chars _ _ hm1 with hm2 | hsp
      · exact hs2art c hm2
      · rcases hsp with h1 | h1 | h1 <;> (rw [h1]; decide)
    · rcases hsp with h1 | h1 | h1 <;> (rw [h1]; decide)
  rw [hccs]
  rw [ExtractSections.clean_content]
  rw [removeArtifacts_id _ hyart]
  rw [removeBlocks_noNl _ hynl]
  rw [cst_p8 _ (cst_p7 _ (collapseSpTab_idem _))]
  rw [delSpBeforeNl_noNl _ hynl]
  rw [singleNl_noNl none _ hynl]
  rw [collapseNl3_noNl _ hynl]
  rw [p7_p8_normal _ (p7_idem _)]
  rw [p8_idem]

/-- Witness for C6 (amended) at a concrete newline-free input. -/
theorem C6_idempotence_witness :
    '\n' ∉ "see (1)  and ( a) plus\t(2) end".data ∧
      ExtractSections.clean_content (ExtractSections.clean_content
        "see (1)  and ( a) plus\t(2) end".data) =
      ExtractSections.clean_content "see (1)  and ( a) plus\t(2) end".data :=
  ⟨by decide, C6_idempotence_amended "see (1)  and ( a) plus\t(2) end".data
    (by decide)⟩
